import Mathlib

/-!
Verification development for the JuiceFS operation-log analyzer
(`src/loganalysis/log_analyzer.py`).

The Python source is shallowly embedded below.  Conventions of the embedding:

* Python strings are `String` / `List Char`; the regular expression of
  `parse_log_line` is embedded as a deterministic scanner that follows the
  backtracking semantics of `re.match` on this particular pattern (every
  greedy class in the pattern is followed by a character that the class
  cannot match, so maximal munch is exact; the single lazy group `(.*?)`
  is modelled by a left-to-right scan that tries the tail pattern at each
  position).
* Python `float` values are modelled as exact rationals (`Rat`); every
  float in this program is produced by parsing a decimal literal and then
  combined by field operations, which agree with rational arithmetic.
* Python dictionaries with optional keys are modelled by `PyOpt`
  (key absent / key present with value `None` / key present with a value).
* Code that can raise an exception (`int(...)`, `float(...)` on bad input,
  `dict[...]` on a missing key) is modelled in the `Except Unit` monad;
  code that silently skips returns `Option`.
* `list.sort(key=...)` (a stable sort) is modelled by `List.insertionSort`
  with a non-strict key comparison, which is the canonical stable sort.
* ASCII is assumed for the character classes `\d`, `\w`, `str.isdigit` and
  for `int` literals (no unicode digits, no underscore separators), which
  matches every input the log format can produce.
-/

namespace JfsOplog

/-! ### Python string primitives -/

/-- Whitespace for Python `str.strip()`: space, tab, newline, carriage
return, vertical tab, form feed. -/
def pyIsSpace (c : Char) : Bool :=
  c = ' ' || c = '\t' || c = '\n' || c = '\r' || c = Char.ofNat 11 || c = Char.ofNat 12

/-- Python `str.strip()` on a character list. -/
def pyStrip (l : List Char) : List Char :=
  ((l.dropWhile pyIsSpace).reverse.dropWhile pyIsSpace).reverse

/-- Lexicographic comparison of character lists by code point, as Python
compares strings. -/
def lexLe : List Char → List Char → Bool
  | [], _ => true
  | _ :: _, [] => false
  | a :: as, b :: bs =>
    if a.toNat < b.toNat then true
    else if b.toNat < a.toNat then false
    else lexLe as bs

/-- Python `str.split(sep)` for a one-character separator: every occurrence
splits, empty pieces are kept, the empty string yields `[[]]`. -/
def splitOnCh (sep : Char) : List Char → List (List Char)
  | [] => [[]]
  | c :: t =>
    if c = sep then [] :: splitOnCh sep t
    else match splitOnCh sep t with
         | [] => [[c]]
         | p :: ps => (c :: p) :: ps

/-- Numeric value of a digit string (most significant first). -/
def natOfDigits (l : List Char) : Nat :=
  l.foldl (fun n c => n * 10 + (c.toNat - 48)) 0

/-- Python `str.isdigit` (ASCII digits). -/
def isDigitStr (l : List Char) : Bool :=
  !l.isEmpty && l.all Char.isDigit

/-- Python `int(s)` on an already-stripped string: optional sign followed by
one or more digits; `none` models a raised `ValueError`. -/
def pyIntL : List Char → Option Int
  | '-' :: t => if isDigitStr t then some (-(natOfDigits t : Int)) else none
  | '+' :: t => if isDigitStr t then some (natOfDigits t : Int) else none
  | l => if isDigitStr l then some (natOfDigits l : Int) else none

/-- Python `float(s)` restricted to strings drawn from the class `[\d.]+`
(the only strings this program passes to `float`): at most one dot and at
least one digit; `none` models a raised `ValueError`. -/
def pyFloatQ (l : List Char) : Option Rat :=
  let ip := l.takeWhile Char.isDigit
  let rest := l.dropWhile Char.isDigit
  match rest with
  | [] => if ip.isEmpty then none else some ((natOfDigits ip : Rat))
  | '.' :: fp =>
    if fp.all Char.isDigit && !(ip.isEmpty && fp.isEmpty) then
      some ((natOfDigits ip : Rat) + (natOfDigits fp : Rat) / ((10 : Rat) ^ fp.length))
    else none
  | _ => none

/-! ### The regular expression of `parse_log_line`

Pattern (Python):
`(\d{4}\.\d{2}\.\d{2} \d{2}:\d{2}:\d{2}\.\d+) \[uid:(\d+),gid:(\d+),pid:(\d+)\] (\w+) \(([^)]+)\): OK(.*?) <([\d.]+)>`
matched with `re.match` against `line.strip()` (anchored at the start,
not at the end). -/

/-- Word character for `\w` (ASCII). -/
def isWordChar (c : Char) : Bool := c.isAlphanum || c = '_'

/-- Consume exactly `n` digits. -/
def takeNDigits : Nat → List Char → Option (List Char × List Char)
  | 0, l => some ([], l)
  | _ + 1, [] => none
  | n + 1, c :: t =>
    if c.isDigit then (takeNDigits n t).map (fun p => (c :: p.1, p.2)) else none

/-- Consume one expected character. -/
def expectCh (c : Char) : List Char → Option (List Char)
  | [] => none
  | d :: t => if d = c then some t else none

/-- Consume an expected literal string. -/
def expectStr : List Char → List Char → Option (List Char)
  | [], l => some l
  | c :: cs, l => (expectCh c l).bind (expectStr cs)

/-- Maximal non-empty munch of characters satisfying `p` (models a greedy
`X+` whose follow set is disjoint from `X`). -/
def munch1 (p : Char → Bool) (l : List Char) : Option (List Char × List Char) :=
  let a := l.takeWhile p
  if a.isEmpty then none else some (a, l.dropWhile p)

/-- Try to match the tail pattern ` <([\d.]+)>` at the current position;
returns the captured duration digits and the remaining input. -/
def matchDur : List Char → Option (List Char × List Char)
  | ' ' :: '<' :: t =>
    let ds := t.takeWhile (fun c => c.isDigit || c = '.')
    match t.dropWhile (fun c => c.isDigit || c = '.') with
    | '>' :: r => if ds.isEmpty then none else some (ds, r)
    | _ => none
  | _ => none

/-- The lazy group `(.*?)` followed by ` <([\d.]+)>`: scan left to right,
at each position first trying the tail pattern, otherwise letting `.`
(which does not match a newline) consume one character.  Returns the
debug capture and the duration capture; input after the closing `>` is
ignored, as `re.match` does not anchor the end. -/
def scanDebug : List Char → Option (List Char × List Char)
  | [] => none
  | c :: t =>
    match matchDur (c :: t) with
    | some (d, _) => some ([], d)
    | none =>
      if c = '\n' then none
      else match scanDebug t with
           | some (dbg, d) => some (c :: dbg, d)
           | none => none

/-- Captures of the line pattern. -/
structure LineGroups where
  ts : List Char
  uid : List Char
  gid : List Char
  pid : List Char
  op : List Char
  argStr : List Char
  debugRaw : List Char
  durStr : List Char
deriving DecidableEq, Repr

/-- The timestamp group `\d{4}\.\d{2}\.\d{2} \d{2}:\d{2}:\d{2}\.\d+`,
written as an explicit chain of matches so the run can be inverted
step by step. -/
def matchTimestamp (l : List Char) : Option (List Char × List Char) :=
  match takeNDigits 4 l with
  | none => none
  | some (d1, r1) =>
    match expectCh '.' r1 with
    | none => none
    | some r2 =>
      match takeNDigits 2 r2 with
      | none => none
      | some (d2, r3) =>
        match expectCh '.' r3 with
        | none => none
        | some r4 =>
          match takeNDigits 2 r4 with
          | none => none
          | some (d3, r5) =>
            match expectCh ' ' r5 with
            | none => none
            | some r6 =>
              match takeNDigits 2 r6 with
              | none => none
              | some (hh, r7) =>
                match expectCh ':' r7 with
                | none => none
                | some r8 =>
                  match takeNDigits 2 r8 with
                  | none => none
                  | some (mm, r9) =>
                    match expectCh ':' r9 with
                    | none => none
                    | some r10 =>
                      match takeNDigits 2 r10 with
                      | none => none
                      | some (ss, r11) =>
                        match expectCh '.' r11 with
                        | none => none
                        | some r12 =>
                          match munch1 Char.isDigit r12 with
                          | none => none
                          | some (fr, r13) =>
                            some (d1 ++ '.' :: d2 ++ '.' :: d3 ++ ' ' :: hh ++
                              ':' :: mm ++ ':' :: ss ++ '.' :: fr, r13)

/-- `re.match` of the full pattern against an (already stripped) line. -/
def regexMatch (l : List Char) : Option LineGroups :=
  match matchTimestamp l with
  | none => none
  | some (ts, r1) =>
    match expectStr " [uid:".data r1 with
    | none => none
    | some r2 =>
      match munch1 Char.isDigit r2 with
      | none => none
      | some (uid, r3) =>
        match expectStr ",gid:".data r3 with
        | none => none
        | some r4 =>
          match munch1 Char.isDigit r4 with
          | none => none
          | some (gid, r5) =>
            match expectStr ",pid:".data r5 with
            | none => none
            | some r6 =>
              match munch1 Char.isDigit r6 with
              | none => none
              | some (pid, r7) =>
                match expectStr "] ".data r7 with
                | none => none
                | some r8 =>
                  match munch1 isWordChar r8 with
                  | none => none
                  | some (op, r9) =>
                    match expectStr " (".data r9 with
                    | none => none
                    | some r10 =>
                      match munch1 (fun c => !(c = ')')) r10 with
                      | none => none
                      | some (argStr, r11) =>
                        match expectStr "): OK".data r11 with
                        | none => none
                        | some r12 =>
                          match scanDebug r12 with
                          | none => none
                          | some (dbg, dur) =>
                            some ⟨ts, uid, gid, pid, op, argStr, dbg, dur⟩

/-- `re.search(r'\((\d+)\)', s)` at one position: `(`, one or more digits
(greedy), `)`. -/
def parenIntAt : List Char → Option Nat
  | [] => none
  | c :: t =>
    if c = '(' then
      match t.dropWhile Char.isDigit with
      | [] => none
      | d :: _ =>
        if d = ')' then
          if (t.takeWhile Char.isDigit).isEmpty then none
          else some (natOfDigits (t.takeWhile Char.isDigit))
        else none
    else none

/-- `re.search(r'\((\d+)\)', s)`: leftmost match wins. -/
def searchParenInt : List Char → Option Nat
  | [] => none
  | c :: t =>
    match parenIntAt (c :: t) with
    | some n => some n
    | none => searchParenInt t

/-- `re.search(r'\[handle:(\w+)\]', s)` at one position. -/
def handleAt (l : List Char) : Option (List Char) :=
  match expectStr "[handle:".data l with
  | none => none
  | some r =>
    let w := r.takeWhile isWordChar
    match r.dropWhile isWordChar with
    | ']' :: _ => if w.isEmpty then none else some w
    | _ => none

/-- `re.search(r'\[handle:(\w+)\]', s)`: leftmost match wins. -/
def searchHandle : List Char → Option (List Char)
  | [] => none
  | c :: t =>
    match handleAt (c :: t) with
    | some w => some w
    | none => searchHandle t

/-! ### The operation record -/

/-- A handle value: integer (read/write/flush argument) or string
(extracted from open debug text). -/
inductive HVal where
  | int (n : Int)
  | str (s : String)
deriving DecidableEq, Repr

/-- State of an optional dictionary key: absent, present with `None`, or
present with a value. -/
inductive PyOpt (α : Type) where
  | absent
  | pynone
  | val (a : α)
deriving DecidableEq, Repr

/-- The dictionary built by `parse_log_line`. -/
structure Record where
  timestamp : String
  uid : Nat
  gid : Nat
  pid : Nat
  operation : String
  duration : Rat
  args : List String
  result_debug : String
  inode : PyOpt Int := .absent
  parent_inode : PyOpt Int := .absent
  size : PyOpt Int := .absent
  offset : PyOpt Int := .absent
  handle : PyOpt HVal := .absent
  bytes_read : PyOpt Int := .absent
  name : PyOpt String := .absent
  mode : PyOpt String := .absent
  umask : PyOpt String := .absent
  flags : PyOpt String := .absent
deriving DecidableEq, Repr

/-- Decidable equality for exception results. -/
instance exceptDecEq {e a : Type} [DecidableEq e] [DecidableEq a] :
    DecidableEq (Except e a) := fun x y =>
  match x, y with
  | .ok u, .ok v =>
    if h : u = v then .isTrue (congrArg Except.ok h)
    else .isFalse (fun hc => h (by cases hc; rfl))
  | .error u, .error v =>
    if h : u = v then .isTrue (congrArg Except.error h)
    else .isFalse (fun hc => h (by cases hc; rfl))
  | .ok _, .error _ => .isFalse (fun hc => Except.noConfusion hc)
  | .error _, .ok _ => .isFalse (fun hc => Except.noConfusion hc)

/-- Lift a possibly-raising conversion into the exception monad. -/
def toE {α : Type} : Option α → Except Unit α
  | some a => .ok a
  | none => .error ()

/-- Element `i` of the argument list (guards in `enrich` make the default
unreachable). -/
def argN (args : List String) (i : Nat) : String := args.getD i ""

/-- The operation-specific `elif` chain of `parse_log_line`. -/
def enrich (g : LineGroups) (base : Record) : Except Unit Record :=
  if base.operation = "read" ∧ 4 ≤ base.args.length then
    match pyIntL (argN base.args 0).data, pyIntL (argN base.args 1).data,
        pyIntL (argN base.args 2).data, pyIntL (argN base.args 3).data with
    | some inode, some size, some off, some h =>
      .ok { base with inode := .val inode, size := .val size, offset := .val off,
                      handle := .val (.int h),
                      bytes_read := .val (match searchParenInt g.debugRaw with
                                          | some n => (n : Int)
                                          | none => size) }
    | _, _, _, _ => .error ()
  else if base.operation = "open" ∧ 2 ≤ base.args.length then
    match pyIntL (argN base.args 0).data with
    | some inode =>
      .ok { base with inode := .val inode, flags := .val (argN base.args 1),
                      handle := match searchHandle g.debugRaw with
                                | some w => .val (.str (String.mk w))
                                | none => .pynone }
    | none => .error ()
  else if base.operation = "getattr" ∧ 1 ≤ base.args.length then
    let base' :=
      { base with inode :=
          if isDigitStr (argN base.args 0).data then
            PyOpt.val (natOfDigits (argN base.args 0).data : Int)
          else .pynone }
    .ok (if 1 < base.args.length then { base' with flags := .val (argN base.args 1) }
         else base')
  else if base.operation = "create" ∧ 4 ≤ base.args.length then
    match pyIntL (argN base.args 0).data with
    | some pinode =>
      .ok { base with parent_inode := .val pinode, name := .val (argN base.args 1),
                      mode := .val (argN base.args 2),
                      umask := if 3 < base.args.length then .val (argN base.args 3)
                               else .pynone }
    | none => .error ()
  else if base.operation = "write" ∧ 4 ≤ base.args.length then
    match pyIntL (argN base.args 0).data, pyIntL (argN base.args 1).data,
        pyIntL (argN base.args 2).data, pyIntL (argN base.args 3).data with
    | some inode, some size, some off, some h =>
      .ok { base with inode := .val inode, size := .val size, offset := .val off,
                      handle := .val (.int h) }
    | _, _, _, _ => .error ()
  else if base.operation = "unlink" ∧ 2 ≤ base.args.length then
    match pyIntL (argN base.args 0).data with
    | some pinode =>
      .ok { base with parent_inode := .val pinode, name := .val (argN base.args 1) }
    | none => .error ()
  else if base.operation = "flush" ∧ 2 ≤ base.args.length then
    match pyIntL (argN base.args 0).data, pyIntL (argN base.args 1).data with
    | some inode, some h =>
      .ok { base with inode := .val inode, handle := .val (.int h) }
    | _, _ => .error ()
  else if base.operation = "lookup" ∨ base.operation = "statfs" then
    .ok (if !base.args.isEmpty && isDigitStr (argN base.args 0).data then
           { base with inode := .val (natOfDigits (argN base.args 0).data : Int) }
         else base)
  else .ok base

/-- The generic fields of the parsed dictionary, before enrichment. -/
def baseRecord (g : LineGroups) (dur : Rat) : Record :=
  { timestamp := String.mk g.ts
    uid := natOfDigits g.uid
    gid := natOfDigits g.gid
    pid := natOfDigits g.pid
    operation := String.mk g.op
    duration := dur
    args := (splitOnCh ',' g.argStr).map (fun a => String.mk (pyStrip a))
    result_debug := String.mk (pyStrip g.debugRaw) }

/-- `parse_log_line`: `.ok none` is a silently skipped line, `.ok (some r)`
a parsed record, `.error ()` a raised exception. -/
def parse_log_line (line : String) : Except Unit (Option Record) :=
  match regexMatch (pyStrip line.data) with
  | none => .ok none
  | some g =>
    match pyFloatQ g.durStr with
    | none => .error ()
    | some dur =>
      match enrich g (baseRecord g dur) with
      | .ok r => .ok (some r)
      | .error e => .error e

/-! ### Access pattern classifier (`analyze_access_pattern`) -/

/-- Truthiness of `op['offset']`-style key tests: `'offset' in op`. -/
def hasKey {α : Type} : PyOpt α → Bool
  | .absent => false
  | _ => true

/-- Value of a key known to hold an integer (the filters in the source
guarantee the key is present with an `int` for every record the parser can
produce; the default is unreachable there). -/
def pyGetI : PyOpt Int → Int
  | .val n => n
  | _ => 0

/-- The filter `op['operation'] in ['read', 'write'] and 'offset' in op`. -/
def isIOOp (r : Record) : Bool :=
  (r.operation = "read" || r.operation = "write") && hasKey r.offset

/-- `io_ops` of `analyze_access_pattern`. -/
def ioOps (ops : List Record) : List Record := ops.filter isIOOp

/-- Keys of a Python `defaultdict` in insertion order: first occurrences. -/
def firstKeysAux {κ : Type} [DecidableEq κ] (seen : List κ) : List κ → List κ
  | [] => []
  | k :: t => if k ∈ seen then firstKeysAux seen t else k :: firstKeysAux (k :: seen) t

/-- First-occurrence deduplication (Python dict key order). -/
def firstKeys {κ : Type} [DecidableEq κ] (l : List κ) : List κ := firstKeysAux [] l

/-- The keys of `by_inode`, in insertion order. -/
def inodeKeys (ops : List Record) : List (PyOpt Int) :=
  firstKeys ((ioOps ops).map Record.inode)

/-- The group `by_inode[k]`, in input order. -/
def groupOf (ops : List Record) (k : PyOpt Int) : List Record :=
  (ioOps ops).filter (fun r => r.inode = k)

/-- Comparison used by `ops.sort(key=lambda x: x['timestamp'])`. -/
def tsLeProp (a b : Record) : Prop := lexLe a.timestamp.data b.timestamp.data = true

instance : DecidableRel tsLeProp := fun a b => by
  unfold tsLeProp; infer_instance

/-- Python `list.sort` by timestamp: a stable ascending sort. -/
def sortTS (l : List Record) : List Record := l.insertionSort tsLeProp

/-- `prev_end = prev['offset'] + prev['size']`;
`seek_distance = abs(curr['offset'] - prev_end)`. -/
def seekDist (p c : Record) : Int :=
  ((pyGetI c.offset - (pyGetI p.offset + pyGetI p.size)).natAbs : Int)

/-- Classification of one transition. -/
inductive TKind where
  | seq
  | randBack
  | randFwd
deriving DecidableEq, Repr

/-- The classification branch of the transition loop. -/
def transClass (p c : Record) : TKind :=
  if seekDist p c ≤ pyGetI p.size then .seq
  else if pyGetI c.offset < pyGetI p.offset then .randBack
  else .randFwd

/-- Consecutive pairs of a list. -/
def transPairs (l : List Record) : List (Record × Record) := l.zip l.tail

/-- Per-group statistics accumulated by the transition loop. -/
structure GStats where
  seqC : Nat
  randC : Nat
  backC : Nat
  fwdC : Nat
  seeks : List Int
deriving DecidableEq, Repr

/-- The body of `for ops in by_inode.values()` for one group. -/
def groupStats (g : List Record) : GStats :=
  if g.length < 2 then ⟨0, 0, 0, 0, []⟩
  else
    let ps := transPairs (sortTS g)
    { seqC := (ps.filter (fun pc => transClass pc.1 pc.2 = .seq)).length
      randC := (ps.filter (fun pc => !(transClass pc.1 pc.2 = .seq))).length
      backC := (ps.filter (fun pc => transClass pc.1 pc.2 = .randBack)).length
      fwdC := (ps.filter (fun pc => transClass pc.1 pc.2 = .randFwd)).length
      seeks := ps.map (fun pc => seekDist pc.1 pc.2) }

/-- `sequential_count` summed over all groups. -/
def seqCount (ops : List Record) : Nat :=
  ((inodeKeys ops).map (fun k => (groupStats (groupOf ops k)).seqC)).sum

/-- `random_count` summed over all groups. -/
def randCount (ops : List Record) : Nat :=
  ((inodeKeys ops).map (fun k => (groupStats (groupOf ops k)).randC)).sum

/-- `backward_seeks` summed over all groups. -/
def backCount (ops : List Record) : Nat :=
  ((inodeKeys ops).map (fun k => (groupStats (groupOf ops k)).backC)).sum

/-- `forward_seeks` summed over all groups. -/
def fwdCount (ops : List Record) : Nat :=
  ((inodeKeys ops).map (fun k => (groupStats (groupOf ops k)).fwdC)).sum

/-- `seek_distances`, concatenated in group iteration order. -/
def allSeeks (ops : List Record) : List Int :=
  (inodeKeys ops).flatMap (fun k => (groupStats (groupOf ops k)).seeks)

/-- `statistics.mean` over a list of integers, as an exact rational. -/
def ratMeanI (l : List Int) : Rat :=
  (l.map (Int.cast : Int → Rat)).sum / (l.length : Rat)

/-- `max` of a non-empty integer list (`0` is unreachable under the guards
in the source). -/
def listMaxI : List Int → Int
  | [] => 0
  | x :: t => t.foldl max x

/-- The result dictionary of `analyze_access_pattern`; the seek fields are
`none` when the corresponding key is missing from the returned dict. -/
structure AccessResult where
  pattern : String
  sequential_percentage : Rat
  random_percentage : Rat
  total_transitions : Nat
  backward_seeks : Option Nat := none
  forward_seeks : Option Nat := none
  avg_seek_distance : Option Rat := none
  max_seek_distance : Option Int := none
deriving DecidableEq, Repr

/-- `total_transitions = sequential_count + random_count`. -/
def totalTrans (ops : List Record) : Nat := seqCount ops + randCount ops

/-- `seq_percentage = (sequential_count / total_transitions) * 100`, as an
exact rational.  The source computes this in IEEE-754 double precision;
the embedding idealizes the division and multiplication as exact, so
rounding effects of the floating-point evaluation are not modelled here
(see `c8_percentages` for where this matters). -/
def seqPct (ops : List Record) : Rat :=
  ((seqCount ops : Rat) / (totalTrans ops : Rat)) * 100

/-- `random_percentage = (random_count / total_transitions) * 100`, as an
exact rational; like `seqPct` this idealizes the source's IEEE-754 double
arithmetic as exact. -/
def randPct (ops : List Record) : Rat :=
  ((randCount ops : Rat) / (totalTrans ops : Rat)) * 100

/-- The early return for fewer than two qualifying records. -/
def insufficientResult : AccessResult :=
  { pattern := "insufficient_data", sequential_percentage := 0,
    random_percentage := 0, total_transitions := 0 }

/-- The early return for zero transitions. -/
def unknownResult : AccessResult :=
  { pattern := "unknown", sequential_percentage := 0,
    random_percentage := 0, total_transitions := 0 }

/-- The final return of `analyze_access_pattern`. -/
def mainResult (ops : List Record) : AccessResult :=
  { pattern :=
      if 70 < seqPct ops then "sequential"
      else if seqPct ops < 30 then "random"
      else "mixed"
    sequential_percentage := seqPct ops
    random_percentage := randPct ops
    total_transitions := totalTrans ops
    backward_seeks := some (backCount ops)
    forward_seeks := some (fwdCount ops)
    avg_seek_distance := some (if allSeeks ops = [] then 0 else ratMeanI (allSeeks ops))
    max_seek_distance := some (if allSeeks ops = [] then 0 else listMaxI (allSeeks ops)) }

/-- `analyze_access_pattern`. -/
def analyze_access_pattern (ops : List Record) : AccessResult :=
  if (ioOps ops).length < 2 then insufficientResult
  else if totalTrans ops = 0 then unknownResult
  else mainResult ops

/-! ### I/O behavior analyzer (`analyze_io_behavior`) -/

/-- Python truthiness of a handle value. -/
def truthyHV : HVal → Bool
  | .int n => !(n = 0)
  | .str s => !(s = "")

/-- `'handle' in op and op['handle']`: the handle key contributes only when
present and truthy. -/
def contribHandle (r : Record) : Option HVal :=
  match r.handle with
  | .val v => if truthyHV v then some v else none
  | _ => none

/-- `'inode' in op and op['inode']`: the inode key contributes only when
present and truthy (nonzero). -/
def contribInode (r : Record) : Option Int :=
  match r.inode with
  | .val n => if n = 0 then none else some n
  | _ => none

/-- `defaultdict(int)` increment: update in place, append new keys. -/
def bump {κ : Type} [DecidableEq κ] : List (κ × Nat) → κ → List (κ × Nat)
  | [], k => [(k, 1)]
  | (k', n) :: t, k => if k = k' then (k', n + 1) :: t else (k', n) :: bump t k

/-- Counter dictionary of a list of keys, in insertion order. -/
def countsOf {κ : Type} [DecidableEq κ] (xs : List κ) : List (κ × Nat) :=
  xs.foldl bump []

/-- `handle_usage`. -/
def handleUsage (ops : List Record) : List (HVal × Nat) :=
  countsOf (ops.filterMap contribHandle)

/-- `inode_operations`. -/
def inodeCounts (ops : List Record) : List (Int × Nat) :=
  countsOf (ops.filterMap contribInode)

/-- Seconds within the day of a timestamp string, mirroring the `try`
block: `none` models an exception caught by the bare `except`. -/
def tsSeconds (ts : String) : Option Rat := do
  let tp ← (splitOnCh ' ' ts.data)[1]?
  let parts := splitOnCh '.' tp
  let timePart := parts.headD []
  let micro : Int ←
    if 1 < parts.length then pyIntL (parts.getD 1 []) else some 0
  match splitOnCh ':' timePart with
  | [h, m, s] => do
    let hv ← pyIntL h
    let mv ← pyIntL m
    let sv ← pyIntL s
    some ((hv : Rat) * 3600 + (mv : Rat) * 60 + (sv : Rat) + (micro : Rat) / 1000000)
  | _ => none

/-- Sort a list of rationals ascending (Python `list.sort`). -/
def sortRat (l : List Rat) : List Rat := l.insertionSort (fun a b => a ≤ b)

/-- Successive differences of a list. -/
def diffs : List Rat → List Rat
  | a :: b :: t => (b - a) :: diffs (b :: t)
  | _ => []

/-- Python `min` over strings, lexicographic (first minimum). -/
def minStr : List String → String
  | [] => ""
  | x :: t => t.foldl (fun a b => if lexLe b.data a.data && !(lexLe a.data b.data) then b else a) x

/-- Python `max` over strings, lexicographic (first maximum). -/
def maxStr : List String → String
  | [] => ""
  | x :: t => t.foldl (fun a b => if lexLe a.data b.data && !(lexLe b.data a.data) then b else a) x

/-- `statistics.mean` over rationals. -/
def ratMean (l : List Rat) : Rat := l.sum / (l.length : Rat)

/-- The result dictionary of `analyze_io_behavior`. -/
structure IOBehavior where
  unique_handles : Nat
  avg_ops_per_handle : Rat
  high_activity_files : Nat
  temporal_gaps : Nat
  max_gap : Rat
  avg_gap : Rat
  time_span_seconds : Rat
  ops_per_second : Rat
  start_time : String
  end_time : String
deriving DecidableEq, Repr

/-- `max` of a non-empty rational list. -/
def listMaxR : List Rat → Rat
  | [] => 0
  | x :: t => t.foldl max x

/-- `analyze_io_behavior`; `none` is the empty dict returned for an empty
input. -/
def analyze_io_behavior (ops : List Record) : Option IOBehavior :=
  if ops.isEmpty then none
  else
    let hu := handleUsage ops
    let ic := inodeCounts ops
    let rawTs := ops.map Record.timestamp
    let opTs := ops.filterMap (fun r => tsSeconds r.timestamp)
    let sorted := sortRat opTs
    let span : Rat :=
      if 1 < opTs.length then sorted.getLastD 0 - sorted.headD 0 else 0
    let rate : Rat :=
      if 1 < opTs.length ∧ 0 < span then (ops.length : Rat) / span else 0
    let gaps := (diffs sorted).filter (fun g => 0 < g)
    some
      { unique_handles := hu.length
        avg_ops_per_handle := if hu.isEmpty then 0 else ratMean (hu.map (fun p => (p.2 : Rat)))
        high_activity_files := (ic.filter (fun p => 100 < p.2)).length
        temporal_gaps := gaps.length
        max_gap := if gaps.isEmpty then 0 else listMaxR gaps
        avg_gap := if gaps.isEmpty then 0 else ratMean gaps
        time_span_seconds := span
        ops_per_second := rate
        start_time := if rawTs.isEmpty then "" else minStr rawTs
        end_time := if rawTs.isEmpty then "" else maxStr rawTs }

/-! ### Aggregator (`analyze_log`)

Only the computed values are modelled; the ASCII table formatting is
display-only.  Dictionary accesses that can raise `KeyError` (the seek
fields of the access analysis, read unconditionally by the report) are
modelled in `Except`. -/

/-- Python inode set element: the value stored by `inodes.add(op['inode'])`
(which may be `None` for a getattr on a non-numeric inode). -/
def inodeSetElem (r : Record) : Option (Option Int) :=
  match r.inode with
  | .absent => none
  | .pynone => some none
  | .val n => some (some n)

/-- `statistics.median` over rationals (the list is non-empty at every call
site reached). -/
def ratMedian (l : List Rat) : Rat :=
  let s := sortRat l
  let n := s.length
  if n % 2 = 1 then s.getD (n / 2) 0
  else (s.getD (n / 2 - 1) 0 + s.getD (n / 2) 0) / 2

/-- `min` of a non-empty rational list. -/
def listMinR : List Rat → Rat
  | [] => 0
  | x :: t => t.foldl min x

/-- The summary values computed by `analyze_log` after the empty-input
guard. -/
structure Summary where
  total_operations : Nat
  unique_inodes : Nat
  op_counts : List (String × Nat)
  total_read_bytes : Int
  total_write_bytes : Int
  read_sizes : List Int
  write_sizes : List Int
  min_duration : Rat
  max_duration : Rat
  avg_duration : Rat
  median_duration : Rat
  total_duration : Rat
  throughput : Rat
  read_throughput : Rat
  write_throughput : Rat
  access : AccessResult
  io : Option IOBehavior
  backward_seeks : Nat
  forward_seeks : Nat
  avg_seek_distance : Rat
  max_seek_shown : Option Int
deriving DecidableEq, Repr

/-- Outcome of `analyze_log`: the explicit no-data result or a summary. -/
inductive LogOutcome where
  | noData
  | report (s : Summary)
deriving DecidableEq, Repr

/-- The record-collection loop of `analyze_log`: parse lines in order,
keep parsed records, propagate the first exception. -/
def collectRecords : List String → Except Unit (List Record)
  | [] => .ok []
  | l :: ls =>
    match parse_log_line l with
    | .error e => .error e
    | .ok p =>
      match collectRecords ls with
      | .error e => .error e
      | .ok rest =>
        .ok (match p with
             | none => rest
             | some r => r :: rest)

/-- Bytes contributed by one record to `total_read_bytes`:
`op.get('bytes_read', op['size'])`. -/
def readBytes (r : Record) : Int :=
  match r.bytes_read with
  | .val b => b
  | _ => pyGetI r.size

/-- The statistics block of `analyze_log`, reached only for a non-empty
record list. -/
def buildSummary (operations : List Record) : Except Unit LogOutcome := do
    let op_counts := countsOf (operations.map Record.operation)
    let read_ops := operations.filter (fun r => r.operation = "read" && hasKey r.size)
    let write_ops := operations.filter (fun r => r.operation = "write" && hasKey r.size)
    let read_sizes := read_ops.map (fun r => pyGetI r.size)
    let write_sizes := write_ops.map (fun r => pyGetI r.size)
    let total_read_bytes := (read_ops.map readBytes).sum
    let total_write_bytes := write_sizes.sum
    let durations := operations.map Record.duration
    let inodes := (operations.filterMap inodeSetElem).dedup
    let access := analyze_access_pattern operations
    let io := analyze_io_behavior operations
    let total_bytes := total_read_bytes + total_write_bytes
    let total_time := durations.sum
    let thr : Rat := if 0 < total_time then (total_bytes : Rat) / total_time else 0
    let rthr : Rat := if 0 < total_time then (total_read_bytes : Rat) / total_time else 0
    let wthr : Rat := if 0 < total_time then (total_write_bytes : Rat) / total_time else 0
    let bw ← toE access.backward_seeks
    let fw ← toE access.forward_seeks
    let av ← toE access.avg_seek_distance
    let mx ← if 0 < av then do
        let m ← toE access.max_seek_distance
        pure (some m)
      else pure none
    return .report
      { total_operations := operations.length
        unique_inodes := inodes.length
        op_counts := op_counts
        total_read_bytes := total_read_bytes
        total_write_bytes := total_write_bytes
        read_sizes := read_sizes
        write_sizes := write_sizes
        min_duration := listMinR durations
        max_duration := listMaxR durations
        avg_duration := ratMean durations
        median_duration := ratMedian durations
        total_duration := total_time
        throughput := thr
        read_throughput := rthr
        write_throughput := wthr
        access := access
        io := io
        backward_seeks := bw
        forward_seeks := fw
        avg_seek_distance := av
        max_seek_shown := mx }

/-- `analyze_log` on the list of lines of the input file. -/
def analyze_log (lines : List String) : Except Unit LogOutcome :=
  match collectRecords lines with
  | .error e => .error e
  | .ok operations =>
    if operations.isEmpty then .ok .noData
    else buildSummary operations

/-! ### Concrete example inputs from the specification -/

/-- The worked parser example line of the specification. -/
def exLine1 : String :=
  "2024.01.01 10:00:00.000000 [uid:0,gid:0,pid:1] read (5,4096,0,7): OK (4096) <0.001000>"

/-- Second read on inode 5: `offset=4096,size=4096`, one second later. -/
def exLine2 : String :=
  "2024.01.01 10:00:01.000000 [uid:0,gid:0,pid:1] read (5,4096,4096,7): OK (4096) <0.001000>"

/-- Third read on inode 5: `offset=1000000,size=100`, one more second later. -/
def exLine3 : String :=
  "2024.01.01 10:00:02.000000 [uid:0,gid:0,pid:1] read (5,100,1000000,7): OK (100) <0.001000>"

/-- The record produced by a successfully parsed line (`none` when the
line is skipped or the parser raises). -/
def parsedRecord (line : String) : Option Record :=
  match parse_log_line line with
  | .ok r => r
  | .error _ => none

/-- The record sequence parsed from the three example lines. -/
def exOps : List Record :=
  match collectRecords [exLine1, exLine2, exLine3] with
  | .ok l => l
  | .error _ => []

/-! ### Small parser lemmas -/

/-- Dropping one leading whitespace character does not change `strip`. -/
theorem pyStrip_cons_space (c : Char) (h : pyIsSpace c = true) (d : List Char) :
    pyStrip (c :: d) = pyStrip d := by
  unfold pyStrip
  rw [List.dropWhile_cons, h]
  simp

/-- `takeWhile` and `dropWhile` distribute over an append when the first
part is not consumed entirely. -/
theorem takeWhile_dropWhile_append_rest {p : Char → Bool} (a b : List Char)
    (h : a.dropWhile p ≠ []) :
    (a ++ b).takeWhile p = a.takeWhile p ∧
      (a ++ b).dropWhile p = a.dropWhile p ++ b := by
  induction a with
  | nil => exact absurd rfl h
  | cons c t ih =>
    by_cases hc : p c = true
    · have ht : t.dropWhile p ≠ [] := by
        intro he
        apply h
        simp [List.dropWhile_cons, hc, he]
      obtain ⟨h1, h2⟩ := ih ht
      simp [List.takeWhile_cons, List.dropWhile_cons, hc, h1, h2]
    · simp [List.takeWhile_cons, List.dropWhile_cons, hc]

/-- `dropWhile` over an append skips a fully consumed first part. -/
theorem dropWhile_append_all (p : Char → Bool) (a b : List Char)
    (h : a.dropWhile p = []) :
    (a ++ b).dropWhile p = b.dropWhile p := by
  induction a with
  | nil => rfl
  | cons c t ih =>
    by_cases hc : p c = true
    · have ht : t.dropWhile p = [] := by
        simpa [List.dropWhile_cons, hc] using h
      simp [List.dropWhile_cons, hc, ih ht]
    · simp [List.dropWhile_cons, hc] at h

/-- `takeNDigits` is unaffected by input appended after a successful
match. -/
theorem takeNDigits_append (n : Nat) (l j d r : List Char)
    (h : takeNDigits n l = some (d, r)) :
    takeNDigits n (l ++ j) = some (d, r ++ j) := by
  induction n generalizing l d r with
  | zero =>
    simp only [takeNDigits, Option.some.injEq, Prod.mk.injEq] at h
    obtain ⟨h1, h2⟩ := h
    subst h1
    subst h2
    rfl
  | succ n ih =>
    cases l with
    | nil => exact Option.noConfusion h
    | cons c t =>
      rw [takeNDigits] at h
      by_cases hc : c.isDigit = true
      · rw [if_pos hc] at h
        cases ht : takeNDigits n t with
        | none => rw [ht] at h; exact Option.noConfusion h
        | some p =>
          obtain ⟨p1, p2⟩ := p
          rw [ht] at h
          simp only [Option.map, Option.some.injEq, Prod.mk.injEq] at h
          obtain ⟨h1, h2⟩ := h
          show takeNDigits (n + 1) (c :: (t ++ j)) = some (d, r ++ j)
          rw [takeNDigits, if_pos hc, ih t p1 p2 ht]
          simp only [Option.map, Option.some.injEq, Prod.mk.injEq]
          exact ⟨h1, by rw [← h2]⟩
      · rw [if_neg hc] at h; exact Option.noConfusion h

/-- `expectCh` is unaffected by input appended after a successful match. -/
theorem expectCh_append (c : Char) (l j r : List Char)
    (h : expectCh c l = some r) :
    expectCh c (l ++ j) = some (r ++ j) := by
  cases l with
  | nil => exact Option.noConfusion h
  | cons d t =>
    rw [expectCh] at h
    by_cases hd : d = c
    · rw [if_pos hd] at h
      injection h with h
      subst h
      show expectCh c (d :: (t ++ j)) = some (t ++ j)
      rw [expectCh, if_pos hd]
    · rw [if_neg hd] at h; exact Option.noConfusion h

/-- `expectStr` is unaffected by input appended after a successful match. -/
theorem expectStr_append (cs l j r : List Char)
    (h : expectStr cs l = some r) :
    expectStr cs (l ++ j) = some (r ++ j) := by
  induction cs generalizing l with
  | nil =>
    injection h with h
    subst h
    rfl
  | cons c cs ih =>
    rw [expectStr] at h
    cases he : expectCh c l with
    | none => rw [he] at h; exact Option.noConfusion h
    | some m =>
      rw [he] at h
      show (expectCh c (l ++ j)).bind (expectStr cs) = some (r ++ j)
      rw [expectCh_append c l j m he]
      exact ih m h

/-- A successful `expectStr` with a non-empty pattern consumed at least
one character. -/
theorem expectStr_arg_ne_nil (cs l r : List Char)
    (hcs : expectStr cs [] = none) (h : expectStr cs l = some r) : l ≠ [] := by
  intro he
  rw [he, hcs] at h
  exact Option.noConfusion h

/-- `munch1` is unaffected by appended input when it did not consume the
whole list. -/
theorem munch1_append (p : Char → Bool) (l j a r : List Char)
    (h : munch1 p l = some (a, r)) (hr : r ≠ []) :
    munch1 p (l ++ j) = some (a, r ++ j) := by
  simp only [munch1] at h ⊢
  by_cases he : (l.takeWhile p).isEmpty = true
  · rw [if_pos he] at h; exact Option.noConfusion h
  · rw [if_neg he] at h
    injection h with h
    have ha : l.takeWhile p = a := congrArg Prod.fst h
    have hrr : l.dropWhile p = r := congrArg Prod.snd h
    have hne : l.dropWhile p ≠ [] := by rw [hrr]; exact hr
    obtain ⟨h1, h2⟩ := takeWhile_dropWhile_append_rest l j hne
    rw [h1, h2, if_neg he, ha, hrr]

/-- A successful `matchDur` starts with the two literal characters. -/
theorem matchDur_shape (l : List Char) (x : List Char × List Char)
    (h : matchDur l = some x) : ∃ t, l = ' ' :: '<' :: t := by
  unfold matchDur at h
  split at h
  · rename_i t
    exact ⟨t, rfl⟩
  · exact Option.noConfusion h

/-- Unfolding equation of `matchDur` at its matching shape. -/
theorem matchDur_cons (t : List Char) :
    matchDur (' ' :: '<' :: t) =
      (match t.dropWhile (fun c => c.isDigit || c = '.') with
       | '>' :: r =>
           if (t.takeWhile (fun c => c.isDigit || c = '.')).isEmpty then none
           else some (t.takeWhile (fun c => c.isDigit || c = '.'), r)
       | _ => none) := rfl

/-- `matchDur` is unaffected by input appended after a successful match. -/
theorem matchDur_append (l j d r : List Char)
    (h : matchDur l = some (d, r)) :
    matchDur (l ++ j) = some (d, r ++ j) := by
  obtain ⟨t, rfl⟩ := matchDur_shape l (d, r) h
  rw [matchDur_cons] at h
  show matchDur (' ' :: '<' :: (t ++ j)) = some (d, r ++ j)
  rw [matchDur_cons]
  cases hdw : t.dropWhile (fun c => c.isDigit || c = '.') with
  | nil => rw [hdw] at h; exact Option.noConfusion h
  | cons e es =>
    rw [hdw] at h
    have hne : t.dropWhile (fun c => c.isDigit || c = '.') ≠ [] := by
      rw [hdw]; exact List.cons_ne_nil e es
    obtain ⟨h1, h2⟩ := takeWhile_dropWhile_append_rest t j hne
    rw [h1, h2, hdw, List.cons_append]
    split at h
    · rename_i r' heq
      injection heq with he hes
      subst he
      by_cases hds : (t.takeWhile (fun c => c.isDigit || c = '.')).isEmpty = true
      · rw [if_pos hds] at h; exact Option.noConfusion h
      · rw [if_neg hds] at h
        injection h with h
        have ha : t.takeWhile (fun c => c.isDigit || c = '.') = d :=
          congrArg Prod.fst h
        have hrr : r' = r := congrArg Prod.snd h
        show (if (t.takeWhile (fun c => c.isDigit || c = '.')).isEmpty then none
              else some (t.takeWhile (fun c => c.isDigit || c = '.'), es ++ j)) =
            some (d, r ++ j)
        rw [if_neg hds, ha, hes, hrr]
    · exact Option.noConfusion h

/-- A failing `matchDur` cannot be made to succeed by appending input,
provided a space occurs later in the list (which rules out the one
creation case, a fully consumed digit-dot tail). -/
theorem matchDur_none_append (c : Char) (t j : List Char)
    (hn : matchDur (c :: t) = none) (hsp : (' ' : Char) ∈ t) :
    matchDur (c :: (t ++ j)) = none := by
  by_cases hc : c = ' '
  · subst hc
    cases t with
    | nil => exact absurd hsp (by simp)
    | cons c2 t2 =>
      by_cases hc2 : c2 = '<'
      · subst hc2
        rw [matchDur_cons] at hn
        show matchDur (' ' :: '<' :: (t2 ++ j)) = none
        rw [matchDur_cons]
        have hsp2 : (' ' : Char) ∈ t2 := by
          rcases List.mem_cons.mp hsp with h | h
          · exact absurd h (by decide)
          · exact h
        have hne : t2.dropWhile (fun c => c.isDigit || c = '.') ≠ [] := by
          intro he
          have hall := List.dropWhile_eq_nil_iff.mp he (' ' : Char) hsp2
          exact absurd hall (by decide)
        obtain ⟨h1, h2⟩ := takeWhile_dropWhile_append_rest t2 j hne
        rw [h1, h2]
        cases hdw : t2.dropWhile (fun c => c.isDigit || c = '.') with
        | nil => exact absurd hdw hne
        | cons e es =>
          rw [List.cons_append]
          split at hn
          · rename_i r' heq
            have hee : e :: es = '>' :: r' := hdw.symm.trans heq
            injection hee with he1 he2
            subst he1
            by_cases hds : (t2.takeWhile (fun c => c.isDigit || c = '.')).isEmpty = true
            · show (if (t2.takeWhile (fun c => c.isDigit || c = '.')).isEmpty then none
                    else some (t2.takeWhile (fun c => c.isDigit || c = '.'), es ++ j)) = none
              rw [if_pos hds]
            · rw [if_neg hds] at hn
              exact Option.noConfusion hn
          · rename_i hnomatch
            split
            · rename_i r'' heq
              injection heq with he1 he2
              exact absurd (by rw [hdw, he1] :
                t2.dropWhile (fun c => c.isDigit || c = '.') = '>' :: es)
                (fun hx => hnomatch es hx)
            · rfl
      · show matchDur (' ' :: c2 :: (t2 ++ j)) = none
        unfold matchDur
        split
        · rename_i t' heq
          injection heq with heq1 heq2
          injection heq2 with hc2' heq3
          exact absurd hc2' hc2
        · rfl
  · show matchDur (c :: (t ++ j)) = none
    unfold matchDur
    split
    · rename_i t' heq
      injection heq with hc' heq2
      exact absurd hc' hc
    · rfl

/-- A successful `scanDebug` scanned over a space somewhere. -/
theorem scanDebug_mem_space (l : List Char) (x : List Char × List Char)
    (h : scanDebug l = some x) : (' ' : Char) ∈ l := by
  induction l generalizing x with
  | nil => exact Option.noConfusion h
  | cons c t ih =>
    rw [scanDebug] at h
    cases hmd : matchDur (c :: t) with
    | some p =>
      obtain ⟨tt, heq⟩ := matchDur_shape (c :: t) p hmd
      injection heq with hc heq2
      rw [hc]
      exact List.mem_cons_self _ _
    | none =>
      rw [hmd] at h
      by_cases hc : c = '\n'
      · rw [if_pos hc] at h
        exact Option.noConfusion h
      · rw [if_neg hc] at h
        cases hs : scanDebug t with
        | none => rw [hs] at h; exact Option.noConfusion h
        | some y => exact List.mem_cons_of_mem c (ih y hs)

/-- `scanDebug` returns the same captures on input extended after the
match. -/
theorem scanDebug_append (l j dbg d : List Char)
    (h : scanDebug l = some (dbg, d)) :
    scanDebug (l ++ j) = some (dbg, d) := by
  induction l generalizing dbg d with
  | nil => exact Option.noConfusion h
  | cons c t ih =>
    rw [scanDebug] at h
    show scanDebug (c :: (t ++ j)) = some (dbg, d)
    rw [scanDebug]
    cases hmd : matchDur (c :: t) with
    | some p =>
      rw [hmd] at h
      obtain ⟨p1, p2⟩ := p
      have hmd2 := matchDur_append (c :: t) j p1 p2 hmd
      rw [List.cons_append] at hmd2
      rw [hmd2]
      exact h
    | none =>
      rw [hmd] at h
      by_cases hc : c = '\n'
      · rw [if_pos hc] at h
        exact Option.noConfusion h
      · rw [if_neg hc] at h
        cases hs : scanDebug t with
        | none => rw [hs] at h; exact Option.noConfusion h
        | some y =>
          obtain ⟨y1, y2⟩ := y
          rw [hs] at h
          have hsp : (' ' : Char) ∈ t := scanDebug_mem_space t (y1, y2) hs
          rw [matchDur_none_append c t j hmd hsp, if_neg hc, ih y1 y2 hs]
          exact h

/-- The timestamp matcher is unaffected by input appended after a
successful match that did not consume the whole line. -/
theorem matchTimestamp_append (l j ts r : List Char)
    (h : matchTimestamp l = some (ts, r)) (hr : r ≠ []) :
    matchTimestamp (l ++ j) = some (ts, r ++ j) := by
  unfold matchTimestamp at h
  split at h
  · exact Option.noConfusion h
  · rename_i d1 r1 h1
    split at h
    · exact Option.noConfusion h
    · rename_i r2 h2
      split at h
      · exact Option.noConfusion h
      · rename_i d2 r3 h3
        split at h
        · exact Option.noConfusion h
        · rename_i r4 h4
          split at h
          · exact Option.noConfusion h
          · rename_i d3 r5 h5
            split at h
            · exact Option.noConfusion h
            · rename_i r6 h6
              split at h
              · exact Option.noConfusion h
              · rename_i hh r7 h7
                split at h
                · exact Option.noConfusion h
                · rename_i r8 h8
                  split at h
                  · exact Option.noConfusion h
                  · rename_i mm r9 h9
                    split at h
                    · exact Option.noConfusion h
                    · rename_i r10 h10
                      split at h
                      · exact Option.noConfusion h
                      · rename_i ss r11 h11
                        split at h
                        · exact Option.noConfusion h
                        · rename_i r12 h12
                          split at h
                          · exact Option.noConfusion h
                          · rename_i fr r13 h13
                            injection h with h
                            injection h with hts hrr
                            subst hts
                            subst hrr
                            simp only [matchTimestamp,
                              takeNDigits_append 4 l j d1 r1 h1,
                              expectCh_append '.' r1 j r2 h2,
                              takeNDigits_append 2 r2 j d2 r3 h3,
                              expectCh_append '.' r3 j r4 h4,
                              takeNDigits_append 2 r4 j d3 r5 h5,
                              expectCh_append ' ' r5 j r6 h6,
                              takeNDigits_append 2 r6 j hh r7 h7,
                              expectCh_append ':' r7 j r8 h8,
                              takeNDigits_append 2 r8 j mm r9 h9,
                              expectCh_append ':' r9 j r10 h10,
                              takeNDigits_append 2 r10 j ss r11 h11,
                              expectCh_append '.' r11 j r12 h12,
                              munch1_append Char.isDigit r12 j fr r13 h13 hr]

/-- `regexMatch` returns the same captures on input appended after the
matched part (the pattern has no end anchor). -/
theorem regexMatch_append (l j : List Char) (g : LineGroups)
    (h : regexMatch l = some g) : regexMatch (l ++ j) = some g := by
  unfold regexMatch at h
  split at h
  · exact Option.noConfusion h
  · rename_i ts r1 h1
    split at h
    · exact Option.noConfusion h
    · rename_i r2 h2
      split at h
      · exact Option.noConfusion h
      · rename_i uid r3 h3
        split at h
        · exact Option.noConfusion h
        · rename_i r4 h4
          split at h
          · exact Option.noConfusion h
          · rename_i gid r5 h5
            split at h
            · exact Option.noConfusion h
            · rename_i r6 h6
              split at h
              · exact Option.noConfusion h
              · rename_i pid r7 h7
                split at h
                · exact Option.noConfusion h
                · rename_i r8 h8
                  split at h
                  · exact Option.noConfusion h
                  · rename_i op r9 h9
                    split at h
                    · exact Option.noConfusion h
                    · rename_i r10 h10
                      split at h
                      · exact Option.noConfusion h
                      · rename_i argStr r11 h11
                        split at h
                        · exact Option.noConfusion h
                        · rename_i r12 h12
                          split at h
                          · exact Option.noConfusion h
                          · rename_i dbg dur h13
                            injection h with h
                            subst h
                            have hr1 : r1 ≠ [] :=
                              expectStr_arg_ne_nil " [uid:".data r1 r2 (by decide) h2
                            have hr3 : r3 ≠ [] :=
                              expectStr_arg_ne_nil ",gid:".data r3 r4 (by decide) h4
                            have hr5 : r5 ≠ [] :=
                              expectStr_arg_ne_nil ",pid:".data r5 r6 (by decide) h6
                            have hr7 : r7 ≠ [] :=
                              expectStr_arg_ne_nil "] ".data r7 r8 (by decide) h8
                            have hr9 : r9 ≠ [] :=
                              expectStr_arg_ne_nil " (".data r9 r10 (by decide) h10
                            have hr11 : r11 ≠ [] :=
                              expectStr_arg_ne_nil "): OK".data r11 r12 (by decide) h12
                            simp only [regexMatch,
                              matchTimestamp_append l j ts r1 h1 hr1,
                              expectStr_append " [uid:".data r1 j r2 h2,
                              munch1_append Char.isDigit r2 j uid r3 h3 hr3,
                              expectStr_append ",gid:".data r3 j r4 h4,
                              munch1_append Char.isDigit r4 j gid r5 h5 hr5,
                              expectStr_append ",pid:".data r5 j r6 h6,
                              munch1_append Char.isDigit r6 j pid r7 h7 hr7,
                              expectStr_append "] ".data r7 j r8 h8,
                              munch1_append isWordChar r8 j op r9 h9 hr9,
                              expectStr_append " (".data r9 j r10 h10,
                              munch1_append (fun c => !(c = ')')) r10 j argStr r11 h11 hr11,
                              expectStr_append "): OK".data r11 j r12 h12,
                              scanDebug_append r12 j dbg dur h13]

/-- `regexMatch` rejects the empty line. -/
theorem regexMatch_nil_eq : regexMatch ([] : List Char) = none := by decide

/-- Appending input to a line whose strip is non-empty only ever appends
to the stripped line. -/
theorem pyStrip_append (a b : List Char) (h : pyStrip a ≠ []) :
    ∃ suf, pyStrip (a ++ b) = pyStrip a ++ suf := by
  have ha : a.dropWhile pyIsSpace ≠ [] := by
    intro he
    apply h
    show ((a.dropWhile pyIsSpace).reverse.dropWhile pyIsSpace).reverse = []
    rw [he]
    rfl
  have hd : (a ++ b).dropWhile pyIsSpace = a.dropWhile pyIsSpace ++ b :=
    (takeWhile_dropWhile_append_rest a b ha).2
  have hs : pyStrip (a ++ b) =
      ((b.reverse ++ (a.dropWhile pyIsSpace).reverse).dropWhile pyIsSpace).reverse := by
    show (((a ++ b).dropWhile pyIsSpace).reverse.dropWhile pyIsSpace).reverse = _
    rw [hd, List.reverse_append]
  cases hbr : b.reverse.dropWhile pyIsSpace with
  | nil =>
    refine ⟨[], ?_⟩
    rw [List.append_nil, hs,
      dropWhile_append_all pyIsSpace b.reverse (a.dropWhile pyIsSpace).reverse hbr]
    rfl
  | cons x xs =>
    have hne : b.reverse.dropWhile pyIsSpace ≠ [] := by
      rw [hbr]
      exact List.cons_ne_nil x xs
    have hsplit : a.dropWhile pyIsSpace =
        pyStrip a ++ ((a.dropWhile pyIsSpace).reverse.takeWhile pyIsSpace).reverse := by
      conv_lhs => rw [← List.reverse_reverse (a.dropWhile pyIsSpace),
        ← List.takeWhile_append_dropWhile (p := pyIsSpace)
          (l := (a.dropWhile pyIsSpace).reverse)]
      rw [List.reverse_append]
      rfl
    refine ⟨((a.dropWhile pyIsSpace).reverse.takeWhile pyIsSpace).reverse ++
      (b.reverse.dropWhile pyIsSpace).reverse, ?_⟩
    rw [hs, (takeWhile_dropWhile_append_rest b.reverse
      (a.dropWhile pyIsSpace).reverse hne).2, List.reverse_append,
      List.reverse_reverse]
    conv_lhs => rw [hsplit]
    rw [List.append_assoc]

/-- A list whose head is not whitespace strips to a list with the same
head. -/
theorem pyStrip_cons_keep (c : Char) (h : pyIsSpace c = false) (d : List Char) :
    ∃ t, pyStrip (c :: d) = c :: t := by
  have h1 : (c :: d).dropWhile pyIsSpace = c :: d := by
    rw [List.dropWhile_cons, if_neg (by simp [h])]
  show ∃ t, (((c :: d).dropWhile pyIsSpace).reverse.dropWhile pyIsSpace).reverse = c :: t
  rw [h1, List.reverse_cons]
  cases hdr : d.reverse.dropWhile pyIsSpace with
  | nil =>
    rw [dropWhile_append_all pyIsSpace d.reverse [c] hdr]
    refine ⟨[], ?_⟩
    rw [List.dropWhile_cons, if_neg (by simp [h])]
    rfl
  | cons x xs =>
    have hne : d.reverse.dropWhile pyIsSpace ≠ [] := by
      rw [hdr]
      exact List.cons_ne_nil x xs
    rw [(takeWhile_dropWhile_append_rest d.reverse [c] hne).2]
    exact ⟨(d.reverse.dropWhile pyIsSpace).reverse, by rw [List.reverse_append]; rfl⟩

/-- The pattern starts with `\d{4}`, so a line whose first character is
not a digit is rejected outright. -/
theorem regexMatch_nondigit (c : Char) (t : List Char) (h : c.isDigit = false) :
    regexMatch (c :: t) = none := by
  have h4 : takeNDigits 4 (c :: t) = none := by
    rw [takeNDigits, if_neg (by simp [h])]
  have hts : matchTimestamp (c :: t) = none := by
    unfold matchTimestamp
    rw [h4]
  unfold regexMatch
  rw [hts]

/-- Prepending one whitespace character never changes the parse result:
the source strips the line before matching. -/
theorem parse_log_line_ws (c : Char) (hc : pyIsSpace c = true) (s : String) :
    parse_log_line ⟨c :: s.data⟩ = parse_log_line s := by
  obtain ⟨d⟩ := s
  show parse_log_line ⟨c :: d⟩ = parse_log_line ⟨d⟩
  unfold parse_log_line
  rw [show (String.mk (c :: d)).data = c :: d from rfl,
      show (String.mk d).data = d from rfl,
      pyStrip_cons_space c hc d]

/-- Appending arbitrary input to a line that parses to a record leaves
the parse unchanged: `re.match` has no end anchor, so everything after
the first matched duration token is ignored. -/
theorem parse_log_line_append (line junk : String) (r : Record)
    (h : parse_log_line line = .ok (some r)) :
    parse_log_line (line ++ junk) = .ok (some r) := by
  obtain ⟨d⟩ := line
  obtain ⟨j⟩ := junk
  show parse_log_line ⟨d ++ j⟩ = .ok (some r)
  unfold parse_log_line at h ⊢
  rw [show (String.mk d).data = d from rfl] at h
  rw [show (String.mk (d ++ j)).data = d ++ j from rfl]
  cases hm : regexMatch (pyStrip d) with
  | none =>
    rw [hm] at h
    simp at h
  | some g =>
    rw [hm] at h
    have hne : pyStrip d ≠ [] := by
      intro he
      rw [he, regexMatch_nil_eq] at hm
      exact Option.noConfusion hm
    obtain ⟨suf, hsuf⟩ := pyStrip_append d j hne
    rw [hsuf, regexMatch_append (pyStrip d) suf g hm]
    exact h

/-- A line whose first character is neither whitespace nor a digit is
rejected: the strip keeps the head and the pattern requires `\d{4}`
first. -/
theorem parse_log_line_nondigit (c : Char) (s : String)
    (hdig : c.isDigit = false) (hws : pyIsSpace c = false) :
    parse_log_line ⟨c :: s.data⟩ = .ok none := by
  obtain ⟨d⟩ := s
  show parse_log_line ⟨c :: d⟩ = .ok none
  obtain ⟨t, ht⟩ := pyStrip_cons_keep c hws d
  unfold parse_log_line
  rw [show (String.mk (c :: d)).data = c :: d from rfl, ht,
      regexMatch_nondigit c t hdig]

/-! ### Claim theorems, part 1 -/

/-- Claim C1.  For consecutive operations on the same inode (after sorting
the group by timestamp) the classifier computes
`seekDistance = |curr.offset − (prev.offset + prev.size)|`, labels the
transition sequential iff `seekDistance ≤ prev.size`, and labels random
transitions backward iff `curr.offset < prev.offset`, forward otherwise.
On the three-read example of the specification (inode 5, offsets
0/4096/1000000 with sizes 4096/4096/100) the two transitions classify as
sequential then random-forward, which the full classifier reports as two
transitions with zero backward and one forward seek. -/
theorem c1_transition_classification :
    (∀ p c : Record,
      seekDist p c = |pyGetI c.offset - (pyGetI p.offset + pyGetI p.size)| ∧
      (transClass p c = .seq ↔ seekDist p c ≤ pyGetI p.size) ∧
      (transClass p c = .randBack ↔
        ¬seekDist p c ≤ pyGetI p.size ∧ pyGetI c.offset < pyGetI p.offset) ∧
      (transClass p c = .randFwd ↔
        ¬seekDist p c ≤ pyGetI p.size ∧ ¬pyGetI c.offset < pyGetI p.offset)) ∧
    (transPairs (sortTS (groupOf exOps (.val 5)))).map
        (fun pc => transClass pc.1 pc.2) = [.seq, .randFwd] ∧
    (analyze_access_pattern exOps).total_transitions = 2 ∧
    (analyze_access_pattern exOps).backward_seeks = some 0 ∧
    (analyze_access_pattern exOps).forward_seeks = some 1 := by
  refine ⟨fun p c => ⟨?_, ?_, ?_, ?_⟩, by decide, by decide, by decide, by decide⟩
  · rw [seekDist, Int.abs_eq_natAbs]
  · unfold transClass
    split
    · simp_all
    · split <;> simp_all
  · unfold transClass
    split
    · simp_all
    · split <;> simp_all
  · unfold transClass
    split
    · simp_all
    · split <;> simp_all

/-- Claim C3.  A line that the fixed grammar (the regular expression of
`parse_log_line`) does not match produces no record at all: the parser
returns the no-record result without raising, and, the parser being a pure
function, parsing the same line again gives the same result. -/
theorem c3_nonmatching_line_skipped (line : String)
    (h : regexMatch (pyStrip line.data) = none) :
    parse_log_line line = .ok none ∧ parse_log_line line = parse_log_line line := by
  unfold parse_log_line
  rw [h]
  exact ⟨rfl, rfl⟩

/-- Witness for C3 at the concrete non-matching line `"hello world"`. -/
theorem c3_witness :
    regexMatch (pyStrip ("hello world" : String).data) = none ∧
    parse_log_line "hello world" = .ok none :=
  ⟨by decide, (c3_nonmatching_line_skipped "hello world" (by decide)).1⟩

/-- Counterexample to claim C5.  The claim says a line with extra
characters after the closing duration bracket, or with leading whitespace
before the timestamp, yields no record; but the source matches with
`re.match` (no end anchor) against `line.strip()` (which removes leading
whitespace as well), so both lines parse to the full example record. -/
theorem c5_counterexample :
    parse_log_line (exLine1 ++ " X") = parse_log_line exLine1 ∧
    parse_log_line ("   " ++ exLine1) = parse_log_line exLine1 ∧
    parse_log_line exLine1 ≠ .ok none ∧
    (parsedRecord (exLine1 ++ " X")).map Record.operation = some "read" := by
  exact ⟨by rfl, by rfl, by decide, by decide⟩

/-- Amended claim C5.  The parser strips leading and trailing whitespace
and then requires the grammar to match a prefix of the stripped line,
anchored at its start.  In full generality: prepending any whitespace
character to any line never changes the parse result; appending any
input to any line that parses to a record leaves the same record (the
match has no end anchor, so everything after the first matched duration
token is ignored); and any line whose first character is neither
whitespace nor a digit yields no record. -/
theorem c5_amended :
    (∀ (c : Char), pyIsSpace c = true → ∀ (s : String),
        parse_log_line ⟨c :: s.data⟩ = parse_log_line s) ∧
    (∀ (line junk : String) (r : Record),
        parse_log_line line = .ok (some r) →
        parse_log_line (line ++ junk) = .ok (some r)) ∧
    (∀ (c : Char) (s : String), c.isDigit = false → pyIsSpace c = false →
        parse_log_line ⟨c :: s.data⟩ = .ok none) :=
  ⟨fun c hc s => parse_log_line_ws c hc s,
   fun line junk r h => parse_log_line_append line junk r h,
   fun c s h1 h2 => parse_log_line_nondigit c s h1 h2⟩

/-- Claim C8.  In the exact-rational idealization of the source's float
arithmetic, the classifier returns percentages that sum to exactly 100
whenever `total_transitions > 0`, and both percentages are 0 when
`total_transitions = 0`.  The real program evaluates
`(sequential / total) * 100 + (random / total) * 100` in IEEE-754 double
precision, where the identity fails: with 1 sequential and 2 random
transitions the doubles sum to `99.99999999999999`, not `100`
(see `c8_float_values` for such a configuration reached from concrete
log lines).  This theorem therefore records the evident intent of the
computation, not the bit-exact float behaviour. -/
theorem c8_percentages (ops : List Record) :
    ((analyze_access_pattern ops).total_transitions ≠ 0 →
      (analyze_access_pattern ops).sequential_percentage +
        (analyze_access_pattern ops).random_percentage = 100) ∧
    ((analyze_access_pattern ops).total_transitions = 0 →
      (analyze_access_pattern ops).sequential_percentage = 0 ∧
      (analyze_access_pattern ops).random_percentage = 0) := by
  unfold analyze_access_pattern
  by_cases h1 : (ioOps ops).length < 2
  · rw [if_pos h1]
    simp [insufficientResult]
  · rw [if_neg h1]
    by_cases h2 : totalTrans ops = 0
    · rw [if_pos h2]
      simp [unknownResult]
    · rw [if_neg h2]
      refine ⟨fun _ => ?_, fun h => absurd h h2⟩
      have hq : ((totalTrans ops : Nat) : Rat) ≠ 0 := by
        exact_mod_cast h2
      have hsum : ((seqCount ops : Rat) + (randCount ops : Rat)) = (totalTrans ops : Rat) := by
        unfold totalTrans
        push_cast
        ring
      show seqPct ops + randPct ops = 100
      unfold seqPct randPct
      rw [div_mul_eq_mul_div, div_mul_eq_mul_div, div_add_div_same, div_eq_iff hq]
      linarith [hsum]

/-- Witness for C8 at the three-read example input. -/
theorem c8_witness :
    (analyze_access_pattern exOps).total_transitions ≠ 0 ∧
    (analyze_access_pattern exOps).sequential_percentage +
      (analyze_access_pattern exOps).random_percentage = 100 :=
  ⟨by decide, (c8_percentages exOps).1 (by decide)⟩

/-- Fourth read on inode 5: another far forward jump one second after the
third, giving a second random transition. -/
def exLine4 : String :=
  "2024.01.01 10:00:03.000000 [uid:0,gid:0,pid:1] read (5,100,5000000,7): OK (100) <0.001000>"

/-- The record sequence parsed from the four example lines. -/
def exOps4 : List Record :=
  match collectRecords [exLine1, exLine2, exLine3, exLine4] with
  | .ok l => l
  | .error _ => []

/-- A concrete input on which the exact percentages are the thirds
`100/3` and `200/3`: four reads on one inode, classified as 1 sequential
and 2 random transitions.  Neither value is a dyadic rational, so the
source's double-precision evaluation rounds both, and the rounded
doubles sum to `99.99999999999999` rather than the `100` asserted by the
claim; the exact-rational sum `100/3 + 200/3 = 100` is what
`c8_percentages` proves. -/
theorem c8_float_values :
    seqCount exOps4 = 1 ∧ randCount exOps4 = 2 ∧
    seqPct exOps4 = 100 / 3 ∧ randPct exOps4 = 200 / 3 := by
  refine ⟨by decide, by decide, ?_, ?_⟩
  · rw [seqPct, show seqCount exOps4 = 1 from by decide,
        show totalTrans exOps4 = 3 from by decide]
    norm_num
  · rw [randPct, show randCount exOps4 = 2 from by decide,
        show totalTrans exOps4 = 3 from by decide]
    norm_num

/-- Claim C10.  Exactly the `insufficient_data` and `unknown` results omit
the seek statistics: in those results `backward_seeks`, `forward_seeks`,
`avg_seek_distance`, `max_seek_distance` are all missing, and in every
other result all four are present. -/
theorem c10_seek_fields (ops : List Record) :
    (((analyze_access_pattern ops).pattern = "insufficient_data" ∨
      (analyze_access_pattern ops).pattern = "unknown") →
      (analyze_access_pattern ops).backward_seeks = none ∧
      (analyze_access_pattern ops).forward_seeks = none ∧
      (analyze_access_pattern ops).avg_seek_distance = none ∧
      (analyze_access_pattern ops).max_seek_distance = none) ∧
    (¬((analyze_access_pattern ops).pattern = "insufficient_data" ∨
       (analyze_access_pattern ops).pattern = "unknown") →
      (analyze_access_pattern ops).backward_seeks.isSome = true ∧
      (analyze_access_pattern ops).forward_seeks.isSome = true ∧
      (analyze_access_pattern ops).avg_seek_distance.isSome = true ∧
      (analyze_access_pattern ops).max_seek_distance.isSome = true) := by
  unfold analyze_access_pattern
  by_cases h1 : (ioOps ops).length < 2
  · rw [if_pos h1]
    simp [insufficientResult]
  · rw [if_neg h1]
    by_cases h2 : totalTrans ops = 0
    · rw [if_pos h2]
      simp [unknownResult]
    · rw [if_neg h2]
      refine ⟨fun h => ?_, fun _ => by simp [mainResult]⟩
      rcases h with h | h <;>
        · simp only [mainResult] at h
          split at h <;> first
            | exact absurd h (by decide)
            | (split at h <;> exact absurd h (by decide))

/-- Witness for C10 at the empty input (an `insufficient_data` result). -/
theorem c10_witness :
    ((analyze_access_pattern []).pattern = "insufficient_data" ∨
      (analyze_access_pattern []).pattern = "unknown") ∧
    (analyze_access_pattern []).backward_seeks = none :=
  ⟨Or.inl (by decide), ((c10_seek_fields []).1 (Or.inl (by decide))).1⟩

/-! ### Lemmas about groups and transition counts -/

/-- Membership in the first-occurrence key list. -/
theorem mem_firstKeysAux {κ : Type} [DecidableEq κ] (l : List κ) :
    ∀ (seen : List κ) (a : κ), a ∈ firstKeysAux seen l ↔ a ∈ l ∧ a ∉ seen := by
  induction l with
  | nil => intro seen a; simp [firstKeysAux]
  | cons k t ih =>
    intro seen a
    unfold firstKeysAux
    by_cases hk : k ∈ seen
    · rw [if_pos hk, ih]
      constructor
      · rintro ⟨ha, hs⟩
        exact ⟨List.mem_cons_of_mem k ha, hs⟩
      · rintro ⟨ha, hs⟩
        rcases List.mem_cons.mp ha with rfl | ha
        · exact absurd hk hs
        · exact ⟨ha, hs⟩
    · rw [if_neg hk]
      simp only [List.mem_cons, ih]
      constructor
      · rintro (rfl | ⟨ha, hs⟩)
        · exact ⟨Or.inl rfl, hk⟩
        · constructor
          · exact Or.inr ha
          · intro hc
            exact hs (Or.inr hc)
      · rintro ⟨rfl | ha, hs⟩
        · exact Or.inl rfl
        · by_cases hak : a = k
          · exact Or.inl hak
          · refine Or.inr ⟨ha, ?_⟩
            intro hc
            rcases hc with rfl | hc
            · exact hak rfl
            · exact hs hc

/-- A key occurs in `firstKeys l` exactly when it occurs in `l`. -/
theorem mem_firstKeys {κ : Type} [DecidableEq κ] (l : List κ) (a : κ) :
    a ∈ firstKeys l ↔ a ∈ l := by
  rw [firstKeys, mem_firstKeysAux]
  simp

/-- The first-occurrence key list has no duplicates. -/
theorem nodup_firstKeysAux {κ : Type} [DecidableEq κ] (l : List κ) :
    ∀ seen : List κ, (firstKeysAux seen l).Nodup := by
  induction l with
  | nil => intro seen; simp [firstKeysAux]
  | cons k t ih =>
    intro seen
    unfold firstKeysAux
    by_cases hk : k ∈ seen
    · rw [if_pos hk]; exact ih seen
    · rw [if_neg hk]
      refine List.Nodup.cons ?_ (ih (k :: seen))
      intro hc
      exact ((mem_firstKeysAux t (k :: seen) k).mp hc).2 (List.mem_cons_self k seen)

/-- `firstKeys` has no duplicates. -/
theorem nodup_firstKeys {κ : Type} [DecidableEq κ] (l : List κ) :
    (firstKeys l).Nodup := nodup_firstKeysAux l []

/-- A key with a non-empty group is among the iterated keys. -/
theorem key_mem_inodeKeys (ops : List Record) (k : PyOpt Int)
    (h : groupOf ops k ≠ []) : k ∈ inodeKeys ops := by
  obtain ⟨r, hr⟩ := List.exists_mem_of_ne_nil _ h
  obtain ⟨hio, hk⟩ := List.mem_filter.mp hr
  have : r.inode = k := of_decide_eq_true hk
  rw [inodeKeys, mem_firstKeys, ← this]
  exact List.mem_map_of_mem Record.inode hio

/-- Splitting a list by a predicate preserves total length. -/
theorem length_filter_split {α : Type} (p : α → Bool) (l : List α) :
    (l.filter p).length + (l.filter (fun a => !(p a))).length = l.length := by
  induction l with
  | nil => rfl
  | cons a t ih =>
    by_cases h : p a <;> simp [List.filter_cons, h] <;> omega

/-- The number of consecutive pairs. -/
theorem transPairs_length (l : List Record) :
    (transPairs l).length = l.length - 1 := by
  rw [transPairs, List.length_zip, List.length_tail]
  omega

/-- Sorting preserves length. -/
theorem sortTS_length (l : List Record) : (sortTS l).length = l.length :=
  (List.perm_insertionSort tsLeProp l).length_eq

/-- In a group of at least two records the transition loop classifies every
one of the `length - 1` consecutive pairs as sequential or random. -/
theorem groupStats_seq_add_rand (g : List Record) (h : 2 ≤ g.length) :
    (groupStats g).seqC + (groupStats g).randC = g.length - 1 := by
  rw [groupStats, if_neg (by omega)]
  simp only
  have hs := length_filter_split
    (fun pc => decide (transClass pc.1 pc.2 = TKind.seq)) (transPairs (sortTS g))
  rw [transPairs_length, sortTS_length] at hs
  exact hs

/-- If every group is a singleton there are no transitions. -/
theorem totalTrans_zero (ops : List Record)
    (h : ∀ k, (groupOf ops k).length ≤ 1) : totalTrans ops = 0 := by
  have hz : ∀ k, groupStats (groupOf ops k) = ⟨0, 0, 0, 0, []⟩ := by
    intro k
    rw [groupStats, if_pos (by have := h k; omega)]
  have h1 : seqCount ops = 0 := by
    apply List.sum_eq_zero
    intro x hx
    obtain ⟨k, _, rfl⟩ := List.mem_map.mp hx
    rw [hz k]
  have h2 : randCount ops = 0 := by
    apply List.sum_eq_zero
    intro x hx
    obtain ⟨k, _, rfl⟩ := List.mem_map.mp hx
    rw [hz k]
  rw [totalTrans, h1, h2]

/-- If some group has at least two records there is a transition. -/
theorem totalTrans_pos (ops : List Record)
    (h : ¬∀ k, (groupOf ops k).length ≤ 1) : totalTrans ops ≠ 0 := by
  push_neg at h
  obtain ⟨k, hk⟩ := h
  have hk2 : 2 ≤ (groupOf ops k).length := hk
  have hne : groupOf ops k ≠ [] := by
    intro hc
    rw [hc] at hk2
    simp at hk2
  have hmem := key_mem_inodeKeys ops k hne
  have hseq : (groupStats (groupOf ops k)).seqC ≤ seqCount ops := by
    refine List.single_le_sum (fun x _ => Nat.zero_le x) _ ?_
    exact List.mem_map_of_mem _ hmem
  have hrand : (groupStats (groupOf ops k)).randC ≤ randCount ops := by
    refine List.single_le_sum (fun x _ => Nat.zero_le x) _ ?_
    exact List.mem_map_of_mem _ hmem
  have hsum := groupStats_seq_add_rand (groupOf ops k) hk2
  rw [totalTrans]
  omega

/-- Claim C2.  The overall label of the classifier: `insufficient_data`
(with zero percentages and transitions) when fewer than two records are
read/write operations with an offset; `unknown` when at least two such
records exist but every inode group is a singleton; otherwise
`sequential` iff the sequential percentage (sequential transitions over
all transitions, times 100) exceeds 70, `random` iff it is below 30, and
`mixed` iff it lies between the two. -/
theorem c2_overall_label (ops : List Record) :
    ((ioOps ops).length < 2 →
      analyze_access_pattern ops =
        { pattern := "insufficient_data", sequential_percentage := 0,
          random_percentage := 0, total_transitions := 0 }) ∧
    (2 ≤ (ioOps ops).length → (∀ k, (groupOf ops k).length ≤ 1) →
      analyze_access_pattern ops =
        { pattern := "unknown", sequential_percentage := 0,
          random_percentage := 0, total_transitions := 0 }) ∧
    (2 ≤ (ioOps ops).length → ¬(∀ k, (groupOf ops k).length ≤ 1) →
      (analyze_access_pattern ops).sequential_percentage =
        ((seqCount ops : Rat) / ((seqCount ops + randCount ops : Nat) : Rat)) * 100 ∧
      ((analyze_access_pattern ops).pattern = "sequential" ↔
        70 < (analyze_access_pattern ops).sequential_percentage) ∧
      ((analyze_access_pattern ops).pattern = "random" ↔
        (analyze_access_pattern ops).sequential_percentage < 30) ∧
      ((analyze_access_pattern ops).pattern = "mixed" ↔
        30 ≤ (analyze_access_pattern ops).sequential_percentage ∧
          (analyze_access_pattern ops).sequential_percentage ≤ 70)) := by
  refine ⟨fun h1 => ?_, fun h1 h2 => ?_, fun h1 h2 => ?_⟩
  · rw [analyze_access_pattern, if_pos h1]
    rfl
  · rw [analyze_access_pattern, if_neg (by omega), if_pos (totalTrans_zero ops h2)]
    rfl
  · rw [analyze_access_pattern, if_neg (by omega), if_neg (totalTrans_pos ops h2)]
    refine ⟨rfl, ?_, ?_, ?_⟩
    · show (mainResult ops).pattern = "sequential" ↔ 70 < seqPct ops
      rw [mainResult]
      simp only
      split
      · rename_i hgt
        simp [hgt]
      · split <;> rename_i hx <;> simp_all
    · show (mainResult ops).pattern = "random" ↔ seqPct ops < 30
      rw [mainResult]
      simp only
      split
      · rename_i hgt
        constructor
        · intro hc
          exact absurd hc (by decide)
        · intro hlt
          exact absurd (lt_trans hlt (by norm_num)) (lt_asymm hgt)
      · split <;> rename_i hx <;> simp_all
    · show (mainResult ops).pattern = "mixed" ↔ 30 ≤ seqPct ops ∧ seqPct ops ≤ 70
      rw [mainResult]
      simp only
      split
      · rename_i hgt
        constructor
        · intro hc
          exact absurd hc (by decide)
        · rintro ⟨-, hle⟩
          exact absurd hgt (not_lt.mpr hle)
      · split
        · rename_i hlt
          constructor
          · intro hc
            exact absurd hc (by decide)
          · rintro ⟨hge, -⟩
            exact absurd hlt (not_lt.mpr hge)
        · rename_i hx hy
          simp only [true_iff]
          exact ⟨not_lt.mp hy, not_lt.mp hx⟩

/-- Witness for C2 at the empty input and at the three-read example. -/
theorem c2_witness :
    (ioOps ([] : List Record)).length < 2 ∧
    analyze_access_pattern ([] : List Record) =
      { pattern := "insufficient_data", sequential_percentage := 0,
        random_percentage := 0, total_transitions := 0 } ∧
    2 ≤ (ioOps exOps).length ∧
    ¬(∀ k, (groupOf exOps k).length ≤ 1) ∧
    ((analyze_access_pattern exOps).pattern = "mixed" ↔
      30 ≤ (analyze_access_pattern exOps).sequential_percentage ∧
        (analyze_access_pattern exOps).sequential_percentage ≤ 70) :=
  ⟨by decide, (c2_overall_label []).1 (by decide), by decide,
   fun hc => by have := hc (.val 5); revert this; decide,
   ((c2_overall_label exOps).2.2 (by decide)
     (fun hc => by have := hc (.val 5); revert this; decide)).2.2.2⟩

/-! ### The `bytes_read` extraction is insensitive to stripping -/

/-- A whitespace character is not a digit. -/
theorem ws_not_digit {c : Char} (h : pyIsSpace c = true) : c.isDigit = false := by
  rw [pyIsSpace] at h
  simp only [Bool.or_eq_true, decide_eq_true_eq] at h
  rcases h with ((((h | h) | h) | h) | h) | h <;> subst h <;> decide

/-- A whitespace character is not an opening parenthesis. -/
theorem ws_ne_lparen {c : Char} (h : pyIsSpace c = true) : c ≠ '(' := by
  intro hc
  subst hc
  exact absurd h (by decide)

/-- A whitespace character is not a closing parenthesis. -/
theorem ws_ne_rparen {c : Char} (h : pyIsSpace c = true) : c ≠ ')' := by
  intro hc
  subst hc
  exact absurd h (by decide)

/-- `takeWhile` and `dropWhile` ignore an appended suffix whose head fails
the predicate. -/
theorem takeWhile_dropWhile_append {p : Char → Bool} (suf : List Char)
    (hsuf : ∀ c, suf.head? = some c → p c = false) :
    ∀ t : List Char, (t ++ suf).takeWhile p = t.takeWhile p ∧
      (t ++ suf).dropWhile p = t.dropWhile p ++ suf := by
  intro t
  induction t with
  | nil =>
    simp only [List.nil_append, List.takeWhile_nil, List.dropWhile_nil]
    cases suf with
    | nil => simp
    | cons c cs =>
      have := hsuf c rfl
      simp [List.takeWhile_cons, List.dropWhile_cons, this]
  | cons a t ih =>
    by_cases ha : p a
    · simp [List.takeWhile_cons, List.dropWhile_cons, ha, ih.1, ih.2]
    · simp [List.takeWhile_cons, List.dropWhile_cons, ha]

/-- `parenIntAt` ignores an appended all-whitespace suffix. -/
theorem parenIntAt_append_ws (suf : List Char)
    (hsuf : ∀ c ∈ suf, pyIsSpace c = true) :
    ∀ m : List Char, parenIntAt (m ++ suf) = parenIntAt m := by
  have hhead : ∀ c, suf.head? = some c → Char.isDigit c = false := by
    intro c hc
    cases suf with
    | nil => exact absurd hc (by simp)
    | cons d ds =>
      simp only [List.head?_cons, Option.some.injEq] at hc
      rw [← hc]
      exact ws_not_digit (hsuf d (List.mem_cons_self d ds))
  intro m
  cases m with
  | nil =>
    show parenIntAt suf = none
    cases suf with
    | nil => rfl
    | cons c cs =>
      have hne := ws_ne_lparen (hsuf c (List.mem_cons_self c cs))
      simp [parenIntAt, hne]
  | cons c t =>
    rw [List.cons_append, parenIntAt, parenIntAt]
    by_cases hc : c = '('
    · rw [if_pos hc, if_pos hc]
      obtain ⟨htake, hdrop⟩ := takeWhile_dropWhile_append suf hhead t
      rw [htake, hdrop]
      cases hdw : t.dropWhile Char.isDigit with
      | nil =>
        simp only [List.nil_append]
        cases suf with
        | nil => rfl
        | cons d ds =>
          have hne := ws_ne_rparen (hsuf d (List.mem_cons_self d ds))
          simp [hne]
      | cons d ds =>
        rfl
    · rw [if_neg hc, if_neg hc]

/-- `searchParenInt` of an all-whitespace list finds nothing. -/
theorem searchParenInt_all_ws (l : List Char)
    (h : ∀ c ∈ l, pyIsSpace c = true) : searchParenInt l = none := by
  induction l with
  | nil => rfl
  | cons c t ih =>
    rw [searchParenInt, parenIntAt,
        if_neg (ws_ne_lparen (h c (List.mem_cons_self c t)))]
    exact ih (fun x hx => h x (List.mem_cons_of_mem c hx))

/-- `searchParenInt` ignores a leading all-whitespace prefix. -/
theorem searchParenInt_ws_lead (pre l : List Char)
    (h : ∀ c ∈ pre, pyIsSpace c = true) :
    searchParenInt (pre ++ l) = searchParenInt l := by
  induction pre with
  | nil => rfl
  | cons c t ih =>
    rw [List.cons_append, searchParenInt, parenIntAt,
        if_neg (ws_ne_lparen (h c (List.mem_cons_self c t)))]
    exact ih (fun x hx => h x (List.mem_cons_of_mem c hx))

/-- `searchParenInt` ignores a trailing all-whitespace suffix. -/
theorem searchParenInt_ws_suffix (l suf : List Char)
    (h : ∀ c ∈ suf, pyIsSpace c = true) :
    searchParenInt (l ++ suf) = searchParenInt l := by
  induction l with
  | nil => exact searchParenInt_all_ws suf h
  | cons c t ih =>
    rw [List.cons_append, searchParenInt, searchParenInt]
    rw [show parenIntAt (c :: (t ++ suf)) = parenIntAt ((c :: t) ++ suf) from rfl,
        parenIntAt_append_ws suf h (c :: t)]
    cases parenIntAt (c :: t) with
    | some n => rfl
    | none => exact ih

/-- Every input decomposes as whitespace, its strip, and whitespace. -/
theorem strip_decomp (l : List Char) :
    ∃ pre suf, (∀ c ∈ pre, pyIsSpace c = true) ∧
      (∀ c ∈ suf, pyIsSpace c = true) ∧ l = pre ++ (pyStrip l ++ suf) := by
  refine ⟨l.takeWhile pyIsSpace,
    ((l.dropWhile pyIsSpace).reverse.takeWhile pyIsSpace).reverse, ?_, ?_, ?_⟩
  · intro c hc
    exact List.mem_takeWhile_imp hc
  · intro c hc
    exact List.mem_takeWhile_imp (List.mem_reverse.mp hc)
  · rw [pyStrip]
    conv_lhs => rw [← List.takeWhile_append_dropWhile (p := pyIsSpace) (l := l)]
    congr 1
    conv_lhs => rw [← List.reverse_reverse (l.dropWhile pyIsSpace),
      ← List.takeWhile_append_dropWhile
        (p := pyIsSpace) (l := (l.dropWhile pyIsSpace).reverse)]
    rw [List.reverse_append]

/-- The parenthesized-integer search gives the same result on the stripped
debug text as on the raw capture. -/
theorem searchParenInt_pyStrip (l : List Char) :
    searchParenInt (pyStrip l) = searchParenInt l := by
  obtain ⟨pre, suf, hpre, hsuf, hl⟩ := strip_decomp l
  conv_rhs => rw [hl]
  rw [searchParenInt_ws_lead pre _ hpre, searchParenInt_ws_suffix _ suf hsuf]

/-! ### Parser inversion lemmas -/

/-- Enrichment never changes the generic fields. -/
theorem enrich_same_shape (g : LineGroups) (base r : Record)
    (h : enrich g base = .ok r) :
    r.operation = base.operation ∧ r.args = base.args ∧
      r.result_debug = base.result_debug := by
  unfold enrich at h
  split at h
  · split at h <;> first
      | (injection h with h2; subst h2; exact ⟨rfl, rfl, rfl⟩)
      | exact Except.noConfusion h
  · split at h
    · split at h <;> first
        | (injection h with h2; subst h2; exact ⟨rfl, rfl, rfl⟩)
        | exact Except.noConfusion h
    · split at h
      · injection h with h2
        subst h2
        refine ⟨?_, ?_, ?_⟩ <;> (split <;> rfl)
      · split at h
        · split at h <;> first
            | (injection h with h2; subst h2; exact ⟨rfl, rfl, rfl⟩)
            | exact Except.noConfusion h
        · split at h
          · split at h <;> first
              | (injection h with h2; subst h2; exact ⟨rfl, rfl, rfl⟩)
              | exact Except.noConfusion h
          · split at h
            · split at h <;> first
                | (injection h with h2; subst h2; exact ⟨rfl, rfl, rfl⟩)
                | exact Except.noConfusion h
            · split at h
              · split at h <;> first
                  | (injection h with h2; subst h2; exact ⟨rfl, rfl, rfl⟩)
                  | exact Except.noConfusion h
              · split at h
                · injection h with h2
                  subst h2
                  refine ⟨?_, ?_, ?_⟩ <;> (split <;> rfl)
                · injection h with h2
                  subst h2
                  exact ⟨rfl, rfl, rfl⟩

/-- The read branch of enrichment: `bytes_read` comes from the
parenthesized integer of the raw debug capture, with the requested size as
the fallback. -/
theorem enrich_read_bytes (g : LineGroups) (base r : Record)
    (h : enrich g base = .ok r)
    (hop : base.operation = "read") (hlen : 4 ≤ base.args.length) :
    r.bytes_read = .val (match searchParenInt g.debugRaw with
                         | some n => (n : Int)
                         | none => pyGetI r.size) := by
  unfold enrich at h
  rw [if_pos ⟨hop, hlen⟩] at h
  split at h
  · injection h with h2
    subst h2
    cases searchParenInt g.debugRaw <;> rfl
  · exact Except.noConfusion h

/-- The record that `parse_log_line exLine1` produces (the duration is
written in the exact arithmetic shape the parser builds). -/
def exRec1 : Record :=
  { timestamp := "2024.01.01 10:00:00.000000"
    uid := 0
    gid := 0
    pid := 1
    operation := "read"
    duration := (((0 : Nat)) : Rat) + (((1000 : Nat)) : Rat) / ((10 : Rat) ^ (6 : Nat))
    args := ["5", "4096", "0", "7"]
    result_debug := "(4096)"
    inode := .val 5
    size := .val 4096
    offset := .val 0
    handle := .val (.int 7)
    bytes_read := .val 4096 }

/-- Claim C6.  The worked example line parses to a read record with
inode 5, size 4096, offset 0, handle 7, bytesRead 4096 and duration
0.001; and in general, for every line that parses to a read record with
at least four arguments, `bytes_read` is the first parenthesized integer
of `result_debug`, falling back to the requested size when none is
present. -/
theorem c6_read_example_and_bytes :
    ((parsedRecord exLine1).map Record.operation = some "read" ∧
     (parsedRecord exLine1).map Record.inode = some (.val 5) ∧
     (parsedRecord exLine1).map Record.size = some (.val 4096) ∧
     (parsedRecord exLine1).map Record.offset = some (.val 0) ∧
     (parsedRecord exLine1).map Record.handle = some (.val (.int 7)) ∧
     (parsedRecord exLine1).map Record.bytes_read = some (.val 4096) ∧
     (parsedRecord exLine1).map Record.duration = some (1 / 1000)) ∧
    (∀ (line : String) (r : Record),
      parse_log_line line = .ok (some r) →
      r.operation = "read" →
      4 ≤ r.args.length →
      r.bytes_read = .val (match searchParenInt r.result_debug.data with
                           | some n => (n : Int)
                           | none => pyGetI r.size)) := by
  constructor
  · refine ⟨by decide, by decide, by decide, by decide, by decide, by decide, ?_⟩
    have h : (parsedRecord exLine1).map Record.duration =
        some ((((0 : Nat)) : Rat) + (((1000 : Nat)) : Rat) / ((10 : Rat) ^ (6 : Nat))) := by
      rfl
    rw [h]
    norm_num
  · intro line r h hop hlen
    unfold parse_log_line at h
    split at h
    · exact absurd (Except.ok.inj h) (by simp)
    · rename_i g hg
      split at h
      · exact Except.noConfusion h
      · rename_i dur hdur
        split at h
        · rename_i r' hr'
          have hr : r' = r := Option.some.inj (Except.ok.inj h)
          rw [hr] at hr'
          obtain ⟨hshape_op, hshape_args, hshape_dbg⟩ :=
            enrich_same_shape g (baseRecord g dur) r hr'
          have hbop : (baseRecord g dur).operation = "read" := hshape_op ▸ hop
          have hblen : 4 ≤ (baseRecord g dur).args.length := by
            rw [← hshape_args]
            exact hlen
          have hbytes := enrich_read_bytes g (baseRecord g dur) r hr' hbop hblen
          have hdbg : r.result_debug.data = pyStrip g.debugRaw := by
            rw [hshape_dbg]
            rfl
          rw [hdbg, searchParenInt_pyStrip]
          exact hbytes
        · exact Except.noConfusion h

/-- Witness for C6: the general `bytes_read` rule applied to the example
line and its record. -/
theorem c6_witness :
    exRec1.operation = "read" ∧ 4 ≤ exRec1.args.length ∧
    exRec1.bytes_read = .val (match searchParenInt exRec1.result_debug.data with
                              | some n => (n : Int)
                              | none => pyGetI exRec1.size) :=
  ⟨by decide, by decide,
    c6_read_example_and_bytes.2 exLine1 exRec1 (by rfl) (by decide) (by decide)⟩

/-- Witness for C5: all three parts of the amended claim instantiated at
the example line, with every hypothesis discharged concretely. -/
theorem c5_witness :
    pyIsSpace ' ' = true ∧
    parse_log_line ⟨' ' :: exLine1.data⟩ = parse_log_line exLine1 ∧
    parse_log_line exLine1 = .ok (some exRec1) ∧
    parse_log_line (exLine1 ++ " trailing garbage") = .ok (some exRec1) ∧
    ('Z'.isDigit = false ∧ pyIsSpace 'Z' = false) ∧
    parse_log_line ⟨'Z' :: exLine1.data⟩ = .ok none :=
  ⟨rfl,
   c5_amended.1 ' ' rfl exLine1,
   by rfl,
   c5_amended.2.1 exLine1 " trailing garbage" exRec1 (by rfl),
   ⟨rfl, rfl⟩,
   c5_amended.2.2 'Z' exLine1 rfl rfl⟩

/-! ### Claim C9: the empty-input guard -/

/-- A line that matches the line grammar but whose flush arguments are not
integers: `int('x')` raises inside the parser. -/
def flushBadLine : String :=
  "2024.01.01 10:00:00.000000 [uid:0,gid:0,pid:1] flush (x,y): OK <1.0>"

/-- Counterexample to claim C9.  The claim says that whenever the input
contains zero parseable records the analysis returns the no-data result
and propagates no exception; but a grammar-matching flush line with
non-integer arguments produces no record (the parser raises instead), and
on that one-line input the analysis propagates the exception rather than
returning the no-data result. -/
theorem c9_counterexample :
    parse_log_line flushBadLine = .error () ∧
    analyze_log [flushBadLine] = .error () ∧
    analyze_log [flushBadLine] ≠ .ok .noData :=
  ⟨by decide, by decide, by decide⟩

/-- Amended claim C9.  When every input line fails the line grammar (each
parse returns the no-record result, raising nothing), the analysis
returns the documented no-data outcome: no statistics are computed and no
failure escapes. -/
theorem c9_amended (lines : List String)
    (h : ∀ l ∈ lines, parse_log_line l = .ok none) :
    analyze_log lines = .ok .noData := by
  have hc : collectRecords lines = .ok [] := by
    induction lines with
    | nil => rfl
    | cons l ls ih =>
      rw [collectRecords, h l (List.mem_cons_self l ls),
          ih (fun x hx => h x (List.mem_cons_of_mem l hx))]
  rw [analyze_log, hc]
  rfl

/-- Witness for C9 at a one-line input that fails the grammar. -/
theorem c9_witness : analyze_log ["hello"] = .ok .noData :=
  c9_amended ["hello"] (by decide)

/-! ### Claim C4: defaultdict counters -/

/-- Total count stored for key `k` across the entries of a counter list. -/
def cnt {κ : Type} [DecidableEq κ] (m : List (κ × Nat)) (k : κ) : Nat :=
  ((m.filter (fun p => p.1 = k)).map Prod.snd).sum

/-- Expansion of `cnt` over a cons cell. -/
theorem cnt_cons {κ : Type} [DecidableEq κ] (k' : κ) (n : Nat)
    (t : List (κ × Nat)) (j : κ) :
    cnt ((k', n) :: t) j = (if k' = j then n else 0) + cnt t j := by
  by_cases h : k' = j <;> simp [cnt, List.filter_cons, h]

/-- One bump adds one to the bumped key and nothing elsewhere. -/
theorem cnt_bump {κ : Type} [DecidableEq κ] (m : List (κ × Nat)) (k j : κ) :
    cnt (bump m k) j = cnt m j + (if k = j then 1 else 0) := by
  induction m with
  | nil =>
    by_cases h : k = j <;> simp [bump, cnt, h]
  | cons p t ih =>
    obtain ⟨k', n⟩ := p
    rw [bump]
    by_cases hk : k = k'
    · subst hk
      rw [if_pos rfl, cnt_cons, cnt_cons]
      by_cases hj : k = j
      · simp only [if_pos hj]
        omega
      · simp [hj]
    · rw [if_neg hk, cnt_cons, cnt_cons, ih]
      omega

/-- Folding bumps adds the multiplicity of each key. -/
theorem cnt_foldl_bump {κ : Type} [DecidableEq κ] (xs : List κ) :
    ∀ (m : List (κ × Nat)) (j : κ),
      cnt (xs.foldl bump m) j = cnt m j + xs.count j := by
  induction xs with
  | nil => intro m j; simp
  | cons x t ih =>
    intro m j
    rw [List.foldl_cons, ih (bump m x) j, cnt_bump m x j, List.count_cons]
    by_cases h : x = j
    · subst h
      simp only [if_pos rfl, beq_self_eq_true, if_true]
      omega
    · have h2 : j ≠ x := fun hc => h hc.symm
      simp only [if_neg h, beq_iff_eq, if_neg h2]
      omega

/-- Bumping an existing key keeps the key list, a new key is appended. -/
theorem keys_bump {κ : Type} [DecidableEq κ] (m : List (κ × Nat)) (k : κ) :
    (bump m k).map Prod.fst =
      if k ∈ m.map Prod.fst then m.map Prod.fst else m.map Prod.fst ++ [k] := by
  induction m with
  | nil => simp [bump]
  | cons p t ih =>
    obtain ⟨k', n⟩ := p
    rw [bump]
    by_cases hk : k = k'
    · subst hk
      simp [List.map_cons]
    · rw [if_neg hk]
      simp only [List.map_cons, ih]
      by_cases hm : k ∈ t.map Prod.fst
      · simp [hm, hk]
      · have : k ∉ (k' :: t.map Prod.fst) := by
          intro hc
          rcases List.mem_cons.mp hc with h | h
          · exact hk h
          · exact hm h
        simp [hm, this, hk]

/-- The first-occurrence scan is determined by membership of `seen`. -/
theorem firstKeysAux_congr {κ : Type} [DecidableEq κ] (xs : List κ) :
    ∀ s₁ s₂ : List κ, (∀ a, a ∈ s₁ ↔ a ∈ s₂) →
      firstKeysAux s₁ xs = firstKeysAux s₂ xs := by
  induction xs with
  | nil => intro s₁ s₂ _; rfl
  | cons x t ih =>
    intro s₁ s₂ hs
    unfold firstKeysAux
    by_cases hx : x ∈ s₁
    · rw [if_pos hx, if_pos ((hs x).mp hx)]
      exact ih s₁ s₂ hs
    · rw [if_neg hx, if_neg (fun hc => hx ((hs x).mpr hc))]
      refine congrArg (x :: ·) (ih (x :: s₁) (x :: s₂) ?_)
      intro a
      simp [hs a]

/-- Keys of the folded counter: the starting keys followed by the first
occurrences of the new ones. -/
theorem keys_foldl_bump {κ : Type} [DecidableEq κ] (xs : List κ) :
    ∀ m : List (κ × Nat),
      (xs.foldl bump m).map Prod.fst =
        m.map Prod.fst ++ firstKeysAux (m.map Prod.fst) xs := by
  induction xs with
  | nil => intro m; simp [firstKeysAux]
  | cons x t ih =>
    intro m
    rw [List.foldl_cons, ih (bump m x), keys_bump]
    by_cases hx : x ∈ m.map Prod.fst
    · rw [if_pos hx]
      have hfk : firstKeysAux (m.map Prod.fst) (x :: t)
          = firstKeysAux (m.map Prod.fst) t := by
        conv_lhs => rw [firstKeysAux]
        rw [if_pos hx]
      rw [hfk]
    · rw [if_neg hx]
      have hfk : firstKeysAux (m.map Prod.fst) (x :: t)
          = x :: firstKeysAux (x :: m.map Prod.fst) t := by
        conv_lhs => rw [firstKeysAux]
        rw [if_neg hx]
      rw [hfk]
      have hcg : firstKeysAux (m.map Prod.fst ++ [x]) t
          = firstKeysAux (x :: m.map Prod.fst) t := by
        refine firstKeysAux_congr t _ _ ?_
        intro a
        simp [or_comm]
      rw [hcg, List.append_assoc]
      rfl

/-- Keys of a counter built from scratch are the first occurrences. -/
theorem keys_countsOf {κ : Type} [DecidableEq κ] (xs : List κ) :
    (countsOf xs).map Prod.fst = firstKeys xs := by
  rw [countsOf, keys_foldl_bump]
  rfl

/-- In a counter with distinct keys every entry stores its full count. -/
theorem cnt_of_mem_nodup {κ : Type} [DecidableEq κ] :
    ∀ m : List (κ × Nat), (m.map Prod.fst).Nodup →
      ∀ p ∈ m, cnt m p.1 = p.2 := by
  intro m
  induction m with
  | nil => intro _ p hp; exact absurd hp (by simp)
  | cons q t ih =>
    intro hnd p hp
    obtain ⟨k', n⟩ := q
    have hnd' : (t.map Prod.fst).Nodup := (List.nodup_cons.mp hnd).2
    have hknot : k' ∉ t.map Prod.fst := (List.nodup_cons.mp hnd).1
    rcases List.mem_cons.mp hp with rfl | hp
    · rw [cnt_cons]
      have hz : cnt t k' = 0 := by
        rw [cnt]
        have hemp : t.filter (fun p => p.1 = k') = [] := by
          rw [List.filter_eq_nil_iff]
          intro a ha hc
          exact hknot (of_decide_eq_true hc ▸ List.mem_map_of_mem Prod.fst ha)
        rw [hemp]
        rfl
      simp [hz]
    · have hne : ¬(k' = p.1) := by
        intro hc
        exact hknot (hc ▸ List.mem_map_of_mem Prod.fst hp)
      rw [cnt_cons, if_neg hne]
      simpa using ih hnd' p hp

/-- A counter list whose entries each store `f` of their key is the map of
`f` over its keys. -/
theorem eq_map_of_snd {κ : Type} (f : κ → Nat) :
    ∀ m : List (κ × Nat), (∀ p ∈ m, p.2 = f p.1) →
      m = (m.map Prod.fst).map (fun k => (k, f k)) := by
  intro m
  induction m with
  | nil => intro _; rfl
  | cons p t ih =>
    intro h
    obtain ⟨k, n⟩ := p
    simp only [List.map_cons, List.cons.injEq]
    constructor
    · have := h (k, n) (List.mem_cons_self _ t)
      simp only at this
      rw [this]
    · exact ih (fun q hq => h q (List.mem_cons_of_mem _ hq))

/-- The counter built from `xs` is exactly the first-occurrence keys paired
with their multiplicities. -/
theorem countsOf_eq {κ : Type} [DecidableEq κ] (xs : List κ) :
    countsOf xs = (firstKeys xs).map (fun k => (k, xs.count k)) := by
  have hnd : ((countsOf xs).map Prod.fst).Nodup := by
    rw [keys_countsOf]
    exact nodup_firstKeys xs
  have hsnd : ∀ p ∈ countsOf xs, p.2 = xs.count p.1 := by
    intro p hp
    have h1 := cnt_of_mem_nodup (countsOf xs) hnd p hp
    have h2 : cnt (countsOf xs) p.1 = xs.count p.1 := by
      rw [countsOf, cnt_foldl_bump]
      simp [cnt]
    omega
  have := eq_map_of_snd (fun k => xs.count k) (countsOf xs) hsnd
  rw [keys_countsOf] at this
  exact this

/-- Two duplicate-free lists with the same members have equal length. -/
theorem length_eq_of_nodup_same_mem {κ : Type} {l₁ l₂ : List κ}
    (h₁ : l₁.Nodup) (h₂ : l₂.Nodup) (h : ∀ a, a ∈ l₁ ↔ a ∈ l₂) :
    l₁.length = l₂.length :=
  ((List.perm_ext_iff_of_nodup h₁ h₂).mpr h).length_eq

/-- First-occurrence deduplication has the same length as `dedup`. -/
theorem firstKeys_length_eq_dedup {κ : Type} [DecidableEq κ] (xs : List κ) :
    (firstKeys xs).length = xs.dedup.length := by
  refine length_eq_of_nodup_same_mem (nodup_firstKeys xs) (List.nodup_dedup xs) ?_
  intro a
  rw [mem_firstKeys, List.mem_dedup]

/-- A minimal read record on inode 1 whose integer handle is `0`: a
non-null handle that Python truthiness rejects. -/
def recH0 : Record :=
  { timestamp := "2024.01.01 10:00:00.000000"
    uid := 0
    gid := 0
    pid := 1
    operation := "read"
    duration := 0
    args := []
    result_debug := ""
    inode := .val 1
    size := .val 4096
    offset := .val 0
    handle := .val (.int 0) }

/-- A minimal record on inode 42. -/
def rec42 : Record := { recH0 with inode := .val 42, handle := .val (.int 7) }

/-- Spec-side reading of C4: the distinct non-null handle values. -/
def distinctNonNullHandles (ops : List Record) : List HVal :=
  (ops.filterMap (fun r => match r.handle with
                           | .val v => some v
                           | _ => none)).dedup

/-- A record whose present inode is the integer 0 and whose handle key is
absent. -/
def recI0 : Record := { recH0 with inode := .val 0, handle := .absent }

/-- Spec-side reading of C4: the inode values of the records that have an
inode. -/
def presentInodes (ops : List Record) : List Int :=
  ops.filterMap (fun r => match r.inode with
                          | .val n => some n
                          | _ => none)

set_option maxRecDepth 4000 in
/-- Counterexample to claim C4.  The claim says `unique_handles` equals the
number of distinct non-null handle values and that every record with an
inode contributes to the per-inode counts; but the source tests Python
truthiness (`op['handle']`, `op['inode']`), so the integer handle `0` is
non-null yet not counted, and 101 operations on inode `0` report zero
high-activity identifiers although inode 0 has more than 100 operations. -/
theorem c4_counterexample :
    ((analyze_io_behavior [recH0]).map IOBehavior.unique_handles = some 0 ∧
     (distinctNonNullHandles [recH0]).length = 1) ∧
    ((analyze_io_behavior (List.replicate 101 recI0)).map
        IOBehavior.high_activity_files = some 0 ∧
     ((presentInodes (List.replicate 101 recI0)).dedup.filter
        (fun k => 100 < (presentInodes (List.replicate 101 recI0)).count k)).length
       = 1) :=
  ⟨⟨by decide, by decide⟩, ⟨by decide, by decide⟩⟩

/-- Amended claim C4.  Every record with a truthy handle (present, non-null
and neither the integer 0 nor the empty string) and only those contribute
to the per-handle counts, so `unique_handles` is the number of distinct
truthy handle values; every record with a truthy (nonzero) inode
contributes to the per-inode counts, and the high-activity count is the
number of distinct truthy inodes whose count exceeds 100.  In particular
150 operations all on inode 42 report exactly one high-activity inode. -/
theorem c4_amended (ops : List Record) (hne : ops ≠ []) :
    (analyze_io_behavior ops).map IOBehavior.unique_handles =
      some ((ops.filterMap contribHandle).dedup.length) ∧
    (analyze_io_behavior ops).map IOBehavior.high_activity_files =
      some (((ops.filterMap contribInode).dedup.filter
        (fun k => 100 < (ops.filterMap contribInode).count k)).length) ∧
    (analyze_io_behavior (List.replicate 150 rec42)).map
      IOBehavior.high_activity_files = some 1 := by
  have hguard : ¬(ops.isEmpty = true) := by
    simpa using hne
  refine ⟨?_, ?_, by decide⟩
  · have h1 : (analyze_io_behavior ops).map IOBehavior.unique_handles =
        some ((handleUsage ops).length) := by
      rw [analyze_io_behavior, if_neg hguard]
      rfl
    rw [h1, handleUsage]
    congr 1
    rw [← firstKeys_length_eq_dedup, ← keys_countsOf, List.length_map]
  · have h2 : (analyze_io_behavior ops).map IOBehavior.high_activity_files =
        some (((inodeCounts ops).filter (fun p => 100 < p.2)).length) := by
      rw [analyze_io_behavior, if_neg hguard]
      rfl
    rw [h2, inodeCounts, countsOf_eq, List.filter_map, List.length_map]
    congr 1
    have hperm : (firstKeys (ops.filterMap contribInode)).Perm
        ((ops.filterMap contribInode).dedup) := by
      refine (List.perm_ext_iff_of_nodup (nodup_firstKeys _) (List.nodup_dedup _)).mpr ?_
      intro a
      rw [mem_firstKeys, List.mem_dedup]
    exact (hperm.filter _).length_eq

/-- Witness for C4 at the one-record input with handle 0. -/
theorem c4_witness :
    (analyze_io_behavior [recH0]).map IOBehavior.unique_handles =
      some (([recH0].filterMap contribHandle).dedup.length) :=
  (c4_amended [recH0] (by decide)).1

/-! ### Claim C7: order of the input records -/

/-- Two characters with the same code point are equal. -/
theorem char_eq_of_toNat_eq {a b : Char} (h : a.toNat = b.toNat) : a = b := by
  cases a
  cases b
  congr 1
  exact UInt32.toBitVec_injective (BitVec.toNat_injective h)

/-- Two strings with the same character list are equal. -/
theorem string_eq_of_data_eq {a b : String} (h : a.data = b.data) : a = b := by
  cases a
  cases b
  exact congrArg String.mk h

/-- The lexicographic comparison is total. -/
theorem lexLe_total : ∀ a b : List Char, lexLe a b = true ∨ lexLe b a = true
  | [], _ => Or.inl rfl
  | _ :: _, [] => Or.inr rfl
  | a :: as, b :: bs => by
    rw [lexLe, lexLe]
    rcases Nat.lt_trichotomy a.toNat b.toNat with h | h | h
    · left
      rw [if_pos h]
    · rw [if_neg (by omega), if_neg (by omega), if_neg (by omega), if_neg (by omega)]
      exact lexLe_total as bs
    · right
      rw [if_pos h]

/-- The lexicographic comparison is transitive. -/
theorem lexLe_trans : ∀ a b c : List Char,
    lexLe a b = true → lexLe b c = true → lexLe a c = true
  | [], _, _, _, _ => rfl
  | _ :: _, [], _, h1, _ => by simp [lexLe] at h1
  | _ :: _, _ :: _, [], _, h2 => by simp [lexLe] at h2
  | a :: as, b :: bs, c :: cs, h1, h2 => by
    rw [lexLe] at h1 h2 ⊢
    rcases Nat.lt_trichotomy a.toNat b.toNat with hab | hab | hab
    · rcases Nat.lt_trichotomy b.toNat c.toNat with hbc | hbc | hbc
      · rw [if_pos (by omega)]
      · rw [if_pos (by omega)]
      · rw [if_neg (by omega), if_pos hbc] at h2
        exact Bool.noConfusion h2
    · rw [if_neg (by omega), if_neg (by omega)] at h1
      rcases Nat.lt_trichotomy b.toNat c.toNat with hbc | hbc | hbc
      · rw [if_pos (by omega)]
      · rw [if_neg (by omega), if_neg (by omega)] at h2
        rw [if_neg (by omega), if_neg (by omega)]
        exact lexLe_trans as bs cs h1 h2
      · rw [if_neg (by omega), if_pos hbc] at h2
        exact Bool.noConfusion h2
    · rw [if_neg (by omega), if_pos hab] at h1
      exact Bool.noConfusion h1

/-- The lexicographic comparison is antisymmetric. -/
theorem lexLe_antisymm : ∀ a b : List Char,
    lexLe a b = true → lexLe b a = true → a = b
  | [], [], _, _ => rfl
  | [], _ :: _, _, h2 => by simp [lexLe] at h2
  | _ :: _, [], h1, _ => by simp [lexLe] at h1
  | a :: as, b :: bs, h1, h2 => by
    rw [lexLe] at h1 h2
    rcases Nat.lt_trichotomy a.toNat b.toNat with hab | hab | hab
    · rw [if_neg (by omega), if_pos hab] at h2
      exact Bool.noConfusion h2
    · rw [if_neg (by omega), if_neg (by omega)] at h1
      rw [if_neg (by omega), if_neg (by omega)] at h2
      rw [lexLe_antisymm as bs h1 h2, char_eq_of_toNat_eq hab]
    · rw [if_neg (by omega), if_pos hab] at h1
      exact Bool.noConfusion h1

instance : IsTotal Record tsLeProp :=
  ⟨fun a b => lexLe_total a.timestamp.data b.timestamp.data⟩

instance : IsTrans Record tsLeProp :=
  ⟨fun a b c h1 h2 => lexLe_trans a.timestamp.data b.timestamp.data c.timestamp.data h1 h2⟩

/-- The sorted group is a permutation of the group. -/
theorem sortTS_perm (l : List Record) : (sortTS l).Perm l :=
  List.perm_insertionSort tsLeProp l

/-- The sorted group is sorted by timestamp. -/
theorem sortTS_sorted (l : List Record) : (sortTS l).Sorted tsLeProp :=
  List.sorted_insertionSort tsLeProp l

/-- Strict timestamp order on records. -/
def tsLtProp (a b : Record) : Prop := tsLeProp a b ∧ a.timestamp ≠ b.timestamp

instance : IsAntisymm Record tsLtProp :=
  ⟨fun _ _ h1 h2 => absurd
    (string_eq_of_data_eq (lexLe_antisymm _ _ h1.1 h2.1)) h1.2⟩

/-- A timestamp-sorted list with pairwise distinct timestamps is strictly
sorted. -/
theorem sorted_strict_of_nodup {l : List Record} (hs : l.Sorted tsLeProp)
    (hn : (l.map Record.timestamp).Nodup) : l.Sorted tsLtProp := by
  have h2 : l.Pairwise (fun a b : Record => a.timestamp ≠ b.timestamp) :=
    List.pairwise_map.mp hn
  exact hs.and h2

/-- Sorting is a function of the multiset when the timestamps within are
pairwise distinct (this is stability: with a duplicated timestamp a stable
sort depends on the input order). -/
theorem sortTS_eq_of_perm {g₁ g₂ : List Record} (hp : g₁.Perm g₂)
    (hn : (g₁.map Record.timestamp).Nodup) : sortTS g₁ = sortTS g₂ := by
  have hp' : (sortTS g₁).Perm (sortTS g₂) :=
    (sortTS_perm g₁).trans (hp.trans (sortTS_perm g₂).symm)
  have hn₁ : ((sortTS g₁).map Record.timestamp).Nodup :=
    (((sortTS_perm g₁).symm).map Record.timestamp).nodup hn
  have hn₂ : ((sortTS g₂).map Record.timestamp).Nodup := by
    have hg₂ : (g₂.map Record.timestamp).Nodup := ((hp.map Record.timestamp)).nodup hn
    exact (((sortTS_perm g₂).symm).map Record.timestamp).nodup hg₂
  exact List.eq_of_perm_of_sorted hp'
    (sorted_strict_of_nodup (sortTS_sorted g₁) hn₁)
    (sorted_strict_of_nodup (sortTS_sorted g₂) hn₂)

/-- The iterated keys are a permutation of each other under input
permutation. -/
theorem inodeKeys_perm {l l' : List Record} (hp : l.Perm l') :
    (inodeKeys l).Perm (inodeKeys l') := by
  have hio : (ioOps l).Perm (ioOps l') := hp.filter isIOOp
  refine (List.perm_ext_iff_of_nodup (nodup_firstKeys _) (nodup_firstKeys _)).mpr ?_
  intro k
  simp only [inodeKeys, mem_firstKeys, List.mem_map]
  constructor <;> rintro ⟨r, hr, hrk⟩
  · exact ⟨r, hio.mem_iff.mp hr, hrk⟩
  · exact ⟨r, hio.mem_iff.mpr hr, hrk⟩

/-- Groups are permutations of each other under input permutation. -/
theorem groupOf_perm {l l' : List Record} (hp : l.Perm l') (k : PyOpt Int) :
    (groupOf l k).Perm (groupOf l' k) :=
  (hp.filter isIOOp).filter _

/-- Per-group statistics agree under input permutation with distinct
timestamps. -/
theorem groupStats_eq {l l' : List Record} (hp : l.Perm l')
    (hts : ∀ k, ((groupOf l k).map Record.timestamp).Nodup) (k : PyOpt Int) :
    groupStats (groupOf l k) = groupStats (groupOf l' k) := by
  have hperm := groupOf_perm hp k
  have hlen := hperm.length_eq
  rw [groupStats, groupStats, hlen]
  by_cases h2 : (groupOf l' k).length < 2
  · rw [if_pos h2, if_pos h2]
  · rw [if_neg h2, if_neg h2, sortTS_eq_of_perm hperm (hts k)]

/-- Sums of a per-group statistic over the key list agree under input
permutation. -/
theorem keySum_eq (f : GStats → Nat) {l l' : List Record} (hp : l.Perm l')
    (hts : ∀ k, ((groupOf l k).map Record.timestamp).Nodup) :
    ((inodeKeys l).map (fun k => f (groupStats (groupOf l k)))).sum =
      ((inodeKeys l').map (fun k => f (groupStats (groupOf l' k)))).sum := by
  have hfun : (fun k => f (groupStats (groupOf l k))) =
      (fun k => f (groupStats (groupOf l' k))) :=
    funext fun k => by rw [groupStats_eq hp hts k]
  rw [hfun]
  exact ((inodeKeys_perm hp).map _).sum_eq

/-- The concatenated seek distances are a permutation of each other. -/
theorem allSeeks_perm {l l' : List Record} (hp : l.Perm l')
    (hts : ∀ k, ((groupOf l k).map Record.timestamp).Nodup) :
    (allSeeks l).Perm (allSeeks l') := by
  rw [allSeeks, allSeeks]
  have hfun : (fun k => (groupStats (groupOf l k)).seeks) =
      (fun k => (groupStats (groupOf l' k)).seeks) :=
    funext fun k => by rw [groupStats_eq hp hts k]
  rw [hfun]
  exact (inodeKeys_perm hp).flatMap_right _

/-- Left folds of `max` agree on permuted lists. -/
theorem foldl_max_perm : ∀ {l₁ l₂ : List Int}, l₁.Perm l₂ →
    ∀ a : Int, l₁.foldl max a = l₂.foldl max a := by
  intro l₁ l₂ hp
  induction hp with
  | nil => intro a; rfl
  | cons x _ ih => intro a; simp only [List.foldl_cons]; exact ih _
  | swap x y l =>
    intro a
    simp only [List.foldl_cons]
    have hmx : max (max a y) x = max (max a x) y := by
      rw [max_assoc, max_comm y x, ← max_assoc]
    rw [hmx]
  | trans _ _ ih1 ih2 => intro a; rw [ih1, ih2]

/-- The running maximum agrees on permuted lists. -/
theorem listMaxI_perm : ∀ {l₁ l₂ : List Int}, l₁.Perm l₂ →
    listMaxI l₁ = listMaxI l₂ := by
  intro l₁ l₂ hp
  induction hp with
  | nil => rfl
  | cons x h _ => rw [listMaxI, listMaxI, foldl_max_perm h]
  | swap x y l =>
    rw [listMaxI, listMaxI]
    simp only [List.foldl_cons]
    rw [max_comm]
  | trans _ _ ih1 ih2 => rw [ih1, ih2]

/-- If the whole input has pairwise distinct timestamps, so does every
inode group. -/
theorem groups_ts_nodup_of_global {l : List Record}
    (h : (l.map Record.timestamp).Nodup) :
    ∀ k, ((groupOf l k).map Record.timestamp).Nodup := by
  intro k
  have hsub : List.Sublist (groupOf l k) l :=
    (List.filter_sublist _).trans (List.filter_sublist _)
  exact h.sublist (hsub.map Record.timestamp)

/-- Two read records on inode 1 with the same timestamp: under a stable
sort their order after sorting is their input order. -/
def recA : Record :=
  { timestamp := "2024.01.01 10:00:00.000000"
    uid := 0
    gid := 0
    pid := 1
    operation := "read"
    duration := 0
    args := []
    result_debug := ""
    inode := .val 1
    size := .val 4096
    offset := .val 0
    handle := .val (.int 7) }

/-- The second same-timestamp record, at offset 4096. -/
def recB : Record := { recA with offset := .val 4096 }

/-- `recA` with its timestamp one second later (for the distinct-timestamp
witness). -/
def recC : Record := { recB with timestamp := "2024.01.01 10:00:01.000000" }

/-- Counterexample to claim C7.  The claim says the classifier output is
invariant under any permutation of the input; but with two equal
timestamps on the same inode the stable sort keeps input order, and the
two orders classify the single transition differently (sequential versus
random-backward). -/
theorem c7_counterexample :
    ([recA, recB] : List Record).Perm [recB, recA] ∧
    (analyze_access_pattern [recA, recB]).backward_seeks ≠
      (analyze_access_pattern [recB, recA]).backward_seeks :=
  ⟨List.Perm.swap recB recA [], by decide⟩

/-- Amended claim C7.  When no two qualifying records of the same inode
group share a timestamp, the classifier output is invariant under any
permutation of the input records: it depends only on the chronological
order within each group. -/
theorem c7_amended (l l' : List Record) (hp : l.Perm l')
    (hts : ∀ k, ((groupOf l k).map Record.timestamp).Nodup) :
    analyze_access_pattern l = analyze_access_pattern l' := by
  have hio : (ioOps l).Perm (ioOps l') := hp.filter isIOOp
  have hlen : (ioOps l).length = (ioOps l').length := hio.length_eq
  have hseq : seqCount l = seqCount l' := keySum_eq GStats.seqC hp hts
  have hrand : randCount l = randCount l' := keySum_eq GStats.randC hp hts
  have hback : backCount l = backCount l' := keySum_eq GStats.backC hp hts
  have hfwd : fwdCount l = fwdCount l' := keySum_eq GStats.fwdC hp hts
  have htt : totalTrans l = totalTrans l' := by
    rw [totalTrans, totalTrans, hseq, hrand]
  have hseeks : (allSeeks l).Perm (allSeeks l') := allSeeks_perm hp hts
  have hsp : seqPct l = seqPct l' := by rw [seqPct, seqPct, hseq, htt]
  have hrp : randPct l = randPct l' := by rw [randPct, randPct, hrand, htt]
  have hnil : (allSeeks l = []) ↔ (allSeeks l' = []) := by
    rw [← List.length_eq_zero, ← List.length_eq_zero, hseeks.length_eq]
  have hmean : ratMeanI (allSeeks l) = ratMeanI (allSeeks l') := by
    rw [ratMeanI, ratMeanI, (hseeks.map _).sum_eq, hseeks.length_eq]
  have hmax : listMaxI (allSeeks l) = listMaxI (allSeeks l') := listMaxI_perm hseeks
  have havg : (if allSeeks l = [] then (0 : Rat) else ratMeanI (allSeeks l)) =
      (if allSeeks l' = [] then (0 : Rat) else ratMeanI (allSeeks l')) := by
    by_cases hn : allSeeks l' = []
    · rw [if_pos hn, if_pos (hnil.mpr hn)]
    · rw [if_neg hn, if_neg (fun hc => hn (hnil.mp hc)), hmean]
  have hmx : (if allSeeks l = [] then (0 : Int) else listMaxI (allSeeks l)) =
      (if allSeeks l' = [] then (0 : Int) else listMaxI (allSeeks l')) := by
    by_cases hn : allSeeks l' = []
    · rw [if_pos hn, if_pos (hnil.mpr hn)]
    · rw [if_neg hn, if_neg (fun hc => hn (hnil.mp hc)), hmax]
  rw [analyze_access_pattern, analyze_access_pattern, hlen]
  by_cases h1 : (ioOps l').length < 2
  · rw [if_pos h1, if_pos h1]
  · rw [if_neg h1, if_neg h1, htt]
    by_cases h2 : totalTrans l' = 0
    · rw [if_pos h2, if_pos h2]
    · rw [if_neg h2, if_neg h2, mainResult, mainResult,
          hsp, hrp, htt, hback, hfwd, havg, hmx]

/-- Witness for C7: swapping two distinct-timestamp records changes
nothing. -/
theorem c7_witness :
    analyze_access_pattern [recA, recC] = analyze_access_pattern [recC, recA] :=
  c7_amended [recA, recC] [recC, recA] (List.Perm.swap recC recA [])
    (groups_ts_nodup_of_global (by decide))

end JfsOplog
